import Mathlib

/-!
Verification of the TOB calculator core (`tob_calculator.py`).

The development shallowly embeds the statement-parsing and tax-computation
engine of the source file:

* Python floats are modelled by exact rationals (`Rat`); the specification
  (section 4.6) fixes ordinary round-half rounding at 2 decimals, which is the
  `round2` function below.
* Python dictionaries are modelled as association lists built with
  last-write-wins insertion (`dget` lookup, `upsert` insertion), matching
  insertion-order iteration.
* Rational arithmetic is routed through kernel-computable wrappers
  (`qadd`, `qmul`, `qdiv`, `qabs`, built on `mkRat` / `Rat.divInt`), each
  proved equal to the corresponding field operation, so that concrete runs of
  the embedded code can be evaluated by `decide`.
* Calendar dates inside the rate resolver are modelled as day numbers (`Int`);
  `datetime` subtraction of `timedelta(days = i)` is subtraction of `i`.
-/

set_option maxRecDepth 10000

deriving instance DecidableEq for Except

/-! ## Kernel-computable rational arithmetic -/

/-- Rational constant `n / d`, kernel computable. -/
def qmk (n : Int) (d : Nat) : Rat := mkRat n d

/-- Rational addition, kernel computable (equal to `+` by `qadd_eq`). -/
def qadd (a b : Rat) : Rat :=
  mkRat (a.num * (b.den : Int) + b.num * (a.den : Int)) (a.den * b.den)

/-- Rational multiplication, kernel computable (equal to `*` by `qmul_eq`). -/
def qmul (a b : Rat) : Rat := mkRat (a.num * b.num) (a.den * b.den)

/-- Rational division, kernel computable (equal to `/` by `qdiv_eq`). -/
def qdiv (a b : Rat) : Rat := Rat.divInt (a.num * (b.den : Int)) ((a.den : Int) * b.num)

/-- Rational absolute value, kernel computable (equal to `|·|` by `qabs_eq`). -/
def qabs (a : Rat) : Rat := mkRat (a.num.natAbs : Int) a.den

theorem qmk_eq (n : Int) (d : Nat) : qmk n d = (n : ℚ) / (d : ℚ) := by
  rw [qmk, Rat.mkRat_eq_divInt, Rat.divInt_eq_div]
  norm_num

theorem qadd_eq (a b : ℚ) : qadd a b = a + b := by
  have hda : ((a.den : ℚ)) ≠ 0 := by exact_mod_cast a.den_nz
  have hdb : ((b.den : ℚ)) ≠ 0 := by exact_mod_cast b.den_nz
  rw [qadd, Rat.mkRat_eq_divInt, Rat.divInt_eq_div]
  conv_rhs => rw [← Rat.num_div_den a, ← Rat.num_div_den b]
  rw [div_add_div _ _ hda hdb]
  push_cast
  ring_nf

theorem qmul_eq (a b : ℚ) : qmul a b = a * b := by
  have hda : ((a.den : ℚ)) ≠ 0 := by exact_mod_cast a.den_nz
  have hdb : ((b.den : ℚ)) ≠ 0 := by exact_mod_cast b.den_nz
  rw [qmul, Rat.mkRat_eq_divInt, Rat.divInt_eq_div]
  conv_rhs => rw [← Rat.num_div_den a, ← Rat.num_div_den b]
  rw [div_mul_div_comm]
  push_cast
  ring_nf

theorem qdiv_eq (a b : ℚ) : qdiv a b = a / b := by
  by_cases hb : b = 0
  · subst hb
    simp [qdiv, Rat.divInt_eq_div]
  · have hda : ((a.den : ℚ)) ≠ 0 := by exact_mod_cast a.den_nz
    have hdb : ((b.den : ℚ)) ≠ 0 := by exact_mod_cast b.den_nz
    have hnb : ((b.num : ℚ)) ≠ 0 := by
      exact_mod_cast Rat.num_ne_zero.mpr hb
    rw [qdiv, Rat.divInt_eq_div]
    conv_rhs => rw [← Rat.num_div_den a, ← Rat.num_div_den b]
    push_cast
    field_simp

theorem qabs_eq (a : ℚ) : qabs a = |a| := by
  rw [qabs, Rat.mkRat_eq_divInt, Rat.divInt_eq_div]
  conv_rhs => rw [← Rat.num_div_den a]
  rw [abs_div, abs_of_nonneg (show (0:ℚ) ≤ (a.den : ℚ) by positivity)]
  rw [Int.cast_natAbs]
  norm_num

theorem ratFloor_eq (q : ℚ) : Rat.floor q = ⌊q⌋ := by
  rw [Rat.floor_def, Rat.floor_def']

/-- Rounding to 2 decimal places with round-half-up ties, the fixed rounding
rule the specification (section 4.6) prescribes for `round(x, 2)`. -/
def round2 (q : Rat) : Rat :=
  mkRat (Rat.floor (qadd (qmul q (qmk 100 1)) (qmk 1 2))) 100

theorem round2_eq (q : ℚ) : round2 q = ((round (q * 100) : ℤ) : ℚ) / 100 := by
  rw [round2, qadd_eq, qmul_eq, qmk_eq, qmk_eq, Rat.mkRat_eq_divInt,
    Rat.divInt_eq_div, ratFloor_eq, round_eq]
  norm_num

/-- `round2` is the identity on exact multiples of `1/100`. -/
theorem round2_cent (n : ℤ) : round2 ((n : ℚ) / 100) = (n : ℚ) / 100 := by
  rw [round2_eq]
  have h : ((n : ℚ) / 100) * 100 = (n : ℚ) := by
    field_simp
  rw [h, round_intCast]

/-! ## Python dictionaries as association lists -/

/-- Dictionary lookup: the last binding of a key wins, as with repeated
assignments to a Python `dict` entry. -/
def dget {α β : Type} [DecidableEq α] (l : List (α × β)) (k : α) : Option β :=
  match l with
  | [] => none
  | e :: rest =>
    match dget rest k with
    | some v => some v
    | none => if e.1 = k then some e.2 else none

/-- Dictionary insertion keeping first-insertion order: overwrite the binding
in place when the key exists, append otherwise. -/
def upsert {α β : Type} [DecidableEq α] (l : List (α × β)) (k : α) (v : β) :
    List (α × β) :=
  match l with
  | [] => [(k, v)]
  | e :: rest => if e.1 = k then (k, v) :: rest else e :: upsert rest k v

/-! ## Data model (section 3 of the specification) -/

/-- One parsed trade line, i.e. the dictionaries appended by the extractors
(`tob_calculator.py` lines 207-215 and 309-317).  `shares` is the absolute
value of a Python `int`, `amount` the absolute value of a float. -/
structure RawTx where
  date : String
  broker : String
  stock : String
  type : String
  shares : Int
  currency : String
  amount : Rat
deriving DecidableEq, Inhabited

/-- The aggregate rows built by `group_transactions` (lines 346-355). -/
structure GroupedTx where
  date : String
  broker : String
  stock : String
  type : String
  shares : Int
  currency : String
  amount : Rat
  grouped_count : Nat
deriving DecidableEq, Inhabited

/-- The rows produced by `calculate_tob` (lines 380-385): the grouped row with
`rate`, `eur_amount` and `tob` added. -/
structure TaxedTx where
  date : String
  broker : String
  stock : String
  type : String
  shares : Int
  currency : String
  amount : Rat
  grouped_count : Nat
  rate : Rat
  eur_amount : Rat
  tob : Rat
deriving DecidableEq, Inhabited

/-- The grouping key of line 338: `(date, broker, stock, type, currency)`. -/
def keyOf (t : RawTx) : String × String × String × String × String :=
  (t.date, t.broker, t.stock, t.type, t.currency)

/-- The same key read off a grouped row. -/
def gkeyOf (g : GroupedTx) : String × String × String × String × String :=
  (g.date, g.broker, g.stock, g.type, g.currency)

/-! ## Grouper (`group_transactions`, lines 325-357) -/

/-- One grouping-dictionary entry: key, shares sum, amount sum, member count. -/
abbrev GEntry := (String × String × String × String × String) × Int × Rat × Nat

/-- Folding one transaction into the grouping dictionary (lines 337-341),
modelled as an in-place update of the insertion-ordered entry list. -/
def addTx (acc : List GEntry) (t : RawTx) : List GEntry :=
  match acc with
  | [] => [(keyOf t, t.shares, t.amount, 1)]
  | (k, s, a, c) :: rest =>
    if k = keyOf t then (k, s + t.shares, qadd a t.amount, c + 1) :: rest
    else (k, s, a, c) :: addTx rest t

/-- The grouping dictionary after the whole loop of lines 337-341. -/
def collect (ts : List RawTx) : List GEntry := ts.foldl addTx []

/-- Rebuilding a grouped row from a dictionary entry (lines 344-355). -/
def mkG (e : GEntry) : GroupedTx :=
  { date := e.1.1, broker := e.1.2.1, stock := e.1.2.2.1, type := e.1.2.2.2.1,
    shares := e.2.1, currency := e.1.2.2.2.2, amount := e.2.2.1,
    grouped_count := e.2.2.2 }

/-- Code-point lexicographic strict order on character lists, the order Python
uses to compare strings. -/
def listCharLt : List Char → List Char → Bool
  | [], [] => false
  | [], _ :: _ => true
  | _ :: _, [] => false
  | a :: as, b :: bs => if a = b then listCharLt as bs else decide (a < b)

/-- Python string `<`. -/
def strLt (s t : String) : Bool := listCharLt s.toList t.toList

/-- The sort key of line 357: `(date, broker, stock)`. -/
def sortKey3 (g : GroupedTx) : String × String × String := (g.date, g.broker, g.stock)

/-- Lexicographic strict order on the sort key, as Python tuple comparison. -/
def lex3Lt (a b : String × String × String) : Bool :=
  strLt a.1 b.1 ||
    (decide (a.1 = b.1) &&
      (strLt a.2.1 b.2.1 ||
        (decide (a.2.1 = b.2.1) && strLt a.2.2 b.2.2)))

/-- Non-strict sort relation of line 357: ascending `(date, broker, stock)`. -/
def gle (g h : GroupedTx) : Prop :=
  lex3Lt (sortKey3 g) (sortKey3 h) = true ∨ sortKey3 g = sortKey3 h

instance : DecidableRel gle := fun _ _ => inferInstanceAs (Decidable (_ ∨ _))

/-- `group_transactions` (lines 325-357): fold into the keyed dictionary,
rebuild the rows in insertion order, sort by `(date, broker, stock)`. -/
def group_transactions (transactions : List RawTx) : List GroupedTx :=
  List.insertionSort gle ((collect transactions).map mkG)

/-! ## Tax engine (`calculate_tob`, lines 359-387) -/

/-- The flat TOB rate `0.0035` of line 378. -/
def tobRate : Rat := qmk 35 10000

/-- Looking up `ecb_rates[date][currency]` (lines 369-372); `none` models the
`date not in ecb_rates or currency not in ecb_rates[date]` branch. -/
def rateFor (rates : List (String × List (String × Rat))) (t : GroupedTx) :
    Option Rat :=
  match dget rates t.date with
  | none => none
  | some row => dget row t.currency

/-- Lines 374-385: convert with 2-decimal rounding, tax at `tobRate` with a
second 2-decimal rounding, and extend the input row. -/
def mkTaxed (t : GroupedTx) (r : Rat) : TaxedTx :=
  { date := t.date, broker := t.broker, stock := t.stock, type := t.type,
    shares := t.shares, currency := t.currency, amount := t.amount,
    grouped_count := t.grouped_count, rate := r,
    eur_amount := round2 (qdiv t.amount r),
    tob := round2 (qmul (round2 (qdiv t.amount r)) tobRate) }

/-- `calculate_tob` (lines 359-387).  The error value is the
`(currency, date)` pair interpolated into the `ValueError` of line 370. -/
def calculate_tob (transactions : List GroupedTx)
    (ecb_rates : List (String × List (String × Rat))) :
    Except (String × String) (List TaxedTx) :=
  match transactions with
  | [] => .ok []
  | t :: rest =>
    match rateFor ecb_rates t with
    | none => .error (t.currency, t.date)
    | some r =>
      match calculate_tob rest ecb_rates with
      | .ok l => .ok (mkTaxed t r :: l)
      | .error e => .error e

/-- The totals of `process_statements` lines 420-421: plain sums of the
already-rounded per-row values. -/
def processTotals (results : List TaxedTx) : Rat × Rat :=
  ((results.map TaxedTx.eur_amount).foldl qadd (qmk 0 1),
   (results.map TaxedTx.tob).foldl qadd (qmk 0 1))

/-! ## Order lemmas for the sort relation -/

theorem listCharLt_trans : ∀ {a b c : List Char},
    listCharLt a b = true → listCharLt b c = true → listCharLt a c = true := by
  intro a
  induction a with
  | nil =>
    intro b c h1 h2
    cases b with
    | nil => simp [listCharLt] at h1
    | cons y bs =>
      cases c with
      | nil => simp [listCharLt] at h2
      | cons z cs => simp [listCharLt]
  | cons x as ih =>
    intro b c h1 h2
    cases b with
    | nil => simp [listCharLt] at h1
    | cons y bs =>
      cases c with
      | nil => simp [listCharLt] at h2
      | cons z cs =>
        simp only [listCharLt] at h1 h2 ⊢
        by_cases hxy : x = y
        · subst hxy
          simp only [if_pos rfl] at h1
          by_cases hyz : x = z
          · subst hyz
            simp only [if_pos rfl] at h2 ⊢
            exact ih h1 h2
          · simp only [if_neg hyz] at h2 ⊢
            exact h2
        · simp only [if_neg hxy] at h1
          have hlt1 : x < y := of_decide_eq_true h1
          by_cases hyz : y = z
          · subst hyz
            simp only [if_neg hxy]
            exact decide_eq_true hlt1
          · simp only [if_neg hyz] at h2
            have hlt2 : y < z := of_decide_eq_true h2
            have hlt : x < z := lt_trans hlt1 hlt2
            simp only [if_neg (ne_of_lt hlt)]
            exact decide_eq_true hlt

theorem listCharLt_tri : ∀ (a b : List Char),
    listCharLt a b = true ∨ a = b ∨ listCharLt b a = true := by
  intro a
  induction a with
  | nil =>
    intro b
    cases b with
    | nil => right; left; rfl
    | cons y bs => left; simp [listCharLt]
  | cons x as ih =>
    intro b
    cases b with
    | nil => right; right; simp [listCharLt]
    | cons y bs =>
      by_cases hxy : x = y
      · subst hxy
        rcases ih bs with h | h | h
        · left; simp [listCharLt, h]
        · right; left; rw [h]
        · right; right; simp [listCharLt, h]
      · rcases lt_or_gt_of_ne hxy with h | h
        · left
          simp [listCharLt, if_neg hxy, h]
        · right; right
          have hyx : y ≠ x := fun he => hxy he.symm
          simp [listCharLt, if_neg hyx, h]

theorem strLt_trans {s t u : String} (h1 : strLt s t = true)
    (h2 : strLt t u = true) : strLt s u = true :=
  listCharLt_trans h1 h2

theorem str_toList_inj {s t : String} (h : s.toList = t.toList) : s = t := by
  cases s
  cases t
  exact congrArg String.mk h

theorem strLt_tri (s t : String) : strLt s t = true ∨ s = t ∨ strLt t s = true := by
  rcases listCharLt_tri s.toList t.toList with h | h | h
  · left; exact h
  · right; left; exact str_toList_inj h
  · right; right; exact h

theorem lex3Lt_trans {a b c : String × String × String}
    (h1 : lex3Lt a b = true) (h2 : lex3Lt b c = true) : lex3Lt a c = true := by
  obtain ⟨a1, a2, a3⟩ := a
  obtain ⟨b1, b2, b3⟩ := b
  obtain ⟨c1, c2, c3⟩ := c
  simp only [lex3Lt, Bool.or_eq_true, Bool.and_eq_true, decide_eq_true_eq] at h1 h2 ⊢
  rcases h1 with h1 | ⟨rfl, h1⟩
  · rcases h2 with h2 | ⟨rfl, h2⟩
    · exact Or.inl (strLt_trans h1 h2)
    · exact Or.inl h1
  · rcases h2 with h2 | ⟨rfl, h2⟩
    · exact Or.inl h2
    · right
      refine ⟨rfl, ?_⟩
      rcases h1 with h1 | ⟨rfl, h1⟩
      · rcases h2 with h2 | ⟨rfl, h2⟩
        · exact Or.inl (strLt_trans h1 h2)
        · exact Or.inl h1
      · rcases h2 with h2 | ⟨rfl, h2⟩
        · exact Or.inl h2
        · exact Or.inr ⟨rfl, strLt_trans h1 h2⟩

theorem lex3Lt_tri (a b : String × String × String) :
    lex3Lt a b = true ∨ a = b ∨ lex3Lt b a = true := by
  obtain ⟨a1, a2, a3⟩ := a
  obtain ⟨b1, b2, b3⟩ := b
  simp only [lex3Lt, Bool.or_eq_true, Bool.and_eq_true, decide_eq_true_eq,
    Prod.mk.injEq]
  rcases strLt_tri a1 b1 with h1 | rfl | h1
  · exact Or.inl (Or.inl h1)
  · rcases strLt_tri a2 b2 with h2 | rfl | h2
    · exact Or.inl (Or.inr ⟨rfl, Or.inl h2⟩)
    · rcases strLt_tri a3 b3 with h3 | rfl | h3
      · exact Or.inl (Or.inr ⟨rfl, Or.inr ⟨rfl, h3⟩⟩)
      · exact Or.inr (Or.inl ⟨rfl, rfl, rfl⟩)
      · exact Or.inr (Or.inr (Or.inr ⟨rfl, Or.inr ⟨rfl, h3⟩⟩))
    · exact Or.inr (Or.inr (Or.inr ⟨rfl, Or.inl h2⟩))
  · exact Or.inr (Or.inr (Or.inl h1))

instance : IsTrans GroupedTx gle :=
  ⟨by
    intro a b c h1 h2
    rcases h1 with h1 | h1
    · rcases h2 with h2 | h2
      · exact Or.inl (lex3Lt_trans h1 h2)
      · exact Or.inl (h2 ▸ h1)
    · rcases h2 with h2 | h2
      · exact Or.inl (h1 ▸ h2)
      · exact Or.inr (h1.trans h2)⟩

instance : IsTotal GroupedTx gle :=
  ⟨by
    intro a b
    rcases lex3Lt_tri (sortKey3 a) (sortKey3 b) with h | h | h
    · exact Or.inl (Or.inl h)
    · exact Or.inl (Or.inr h)
    · exact Or.inr (Or.inl h)⟩

/-! ## Characterization of the grouping fold -/

/-- Lookup of a key in the grouping dictionary. -/
def findE (l : List GEntry) (k : String × String × String × String × String) :
    Option GEntry :=
  l.find? (fun e => decide (e.1 = k))

/-- Number of raw transactions carrying a given grouping key. -/
def cnt (ts : List RawTx) (k : String × String × String × String × String) : Nat :=
  (ts.filter (fun t => decide (keyOf t = k))).length

/-- Sum of the share counts of the raw transactions with a given key. -/
def sumSh (ts : List RawTx) (k : String × String × String × String × String) : Int :=
  ((ts.filter (fun t => decide (keyOf t = k))).map RawTx.shares).sum

/-- Sum of the amounts of the raw transactions with a given key. -/
def sumAm (ts : List RawTx) (k : String × String × String × String × String) : Rat :=
  ((ts.filter (fun t => decide (keyOf t = k))).map RawTx.amount).sum

theorem addTx_find_eq (t : RawTx) {k : String × String × String × String × String}
    (h : keyOf t = k) :
    ∀ acc : List GEntry,
      findE (addTx acc t) k =
        match findE acc k with
        | some (k', s, a, c) => some (k', s + t.shares, qadd a t.amount, c + 1)
        | none => some (keyOf t, t.shares, t.amount, 1) := by
  intro acc
  induction acc with
  | nil => simp [addTx, findE, List.find?_cons, h]
  | cons e rest ih =>
    obtain ⟨k0, s0, a0, c0⟩ := e
    by_cases h0 : k0 = keyOf t
    · subst h0
      simp [addTx, findE, List.find?_cons, h]
    · have h0k : k0 ≠ k := fun he => h0 (he.trans h.symm)
      simp only [addTx, if_neg h0, findE, List.find?_cons] at ih ⊢
      simpa [h0k] using ih

theorem addTx_find_ne (t : RawTx) {k : String × String × String × String × String}
    (h : keyOf t ≠ k) :
    ∀ acc : List GEntry, findE (addTx acc t) k = findE acc k := by
  intro acc
  induction acc with
  | nil =>
    simp [addTx, findE, List.find?_cons, h]
  | cons e rest ih =>
    obtain ⟨k0, s0, a0, c0⟩ := e
    by_cases h0 : k0 = keyOf t
    · subst h0
      have h0k : keyOf t ≠ k := h
      simp [addTx, findE, List.find?_cons, h0k]
    · by_cases h0k : k0 = k
      · subst h0k
        simp [addTx, if_neg h0, findE, List.find?_cons]
      · simp only [addTx, if_neg h0, findE, List.find?_cons] at ih ⊢
        simpa [h0k] using ih

theorem foldl_find_some {k : String × String × String × String × String} :
    ∀ (ts : List RawTx) (acc : List GEntry)
      (k' : String × String × String × String × String) (s : Int) (a : Rat) (c : Nat),
      findE acc k = some (k', s, a, c) →
      findE (List.foldl addTx acc ts) k =
        some (k', s + sumSh ts k, a + sumAm ts k, c + cnt ts k) := by
  intro ts
  induction ts with
  | nil =>
    intro acc k' s a c h
    simp [sumSh, sumAm, cnt, h]
  | cons t rest ih =>
    intro acc k' s a c h
    rw [List.foldl_cons]
    by_cases ht : keyOf t = k
    · have hstep := addTx_find_eq t ht acc
      rw [h] at hstep
      have := ih (addTx acc t) k' (s + t.shares) (qadd a t.amount) (c + 1) hstep
      rw [this]
      have hfil : (t :: rest).filter (fun t => decide (keyOf t = k)) =
          t :: rest.filter (fun t => decide (keyOf t = k)) := by
        simp [List.filter, ht]
      simp only [sumSh, sumAm, cnt, hfil, List.map_cons, List.sum_cons,
        List.length_cons, qadd_eq]
      simp only [Option.some.injEq, Prod.mk.injEq]
      exact ⟨by trivial, by ring, by ring, by omega⟩
    · have hstep := addTx_find_ne t ht acc
      rw [h] at hstep
      have := ih (addTx acc t) k' s a c hstep
      rw [this]
      have hfil : (t :: rest).filter (fun t => decide (keyOf t = k)) =
          rest.filter (fun t => decide (keyOf t = k)) := by
        simp [List.filter, ht]
      simp only [sumSh, sumAm, cnt, hfil]

theorem foldl_find_none {k : String × String × String × String × String} :
    ∀ (ts : List RawTx) (acc : List GEntry),
      findE acc k = none →
      findE (List.foldl addTx acc ts) k =
        (if cnt ts k = 0 then none
         else some (k, sumSh ts k, sumAm ts k, cnt ts k)) := by
  intro ts
  induction ts with
  | nil =>
    intro acc h
    simp [sumSh, sumAm, cnt, h]
  | cons t rest ih =>
    intro acc h
    rw [List.foldl_cons]
    by_cases ht : keyOf t = k
    · have hstep := addTx_find_eq t ht acc
      rw [h] at hstep
      have := foldl_find_some rest (addTx acc t) (keyOf t) t.shares t.amount 1 hstep
      rw [this]
      have hfil : (t :: rest).filter (fun t => decide (keyOf t = k)) =
          t :: rest.filter (fun t => decide (keyOf t = k)) := by
        simp [List.filter, ht]
      have hc : cnt (t :: rest) k = cnt rest k + 1 := by
        simp [cnt, hfil]
      rw [if_neg (by omega)]
      subst ht
      simp only [sumSh, sumAm, cnt, hfil, List.map_cons, List.sum_cons,
        List.length_cons]
      simp only [Option.some.injEq, Prod.mk.injEq]
      exact ⟨by trivial, by trivial, by trivial, by omega⟩
    · have hstep := addTx_find_ne t ht acc
      rw [h] at hstep
      have := ih (addTx acc t) hstep
      rw [this]
      have hfil : (t :: rest).filter (fun t => decide (keyOf t = k)) =
          rest.filter (fun t => decide (keyOf t = k)) := by
        simp [List.filter, ht]
      simp only [sumSh, sumAm, cnt, hfil]

/-- The grouping dictionary looked up at key `k`, fully characterized. -/
theorem collect_find (ts : List RawTx) (k : String × String × String × String × String) :
    findE (collect ts) k =
      (if cnt ts k = 0 then none
       else some (k, sumSh ts k, sumAm ts k, cnt ts k)) :=
  foldl_find_none ts [] rfl

theorem addTx_keys_mem (t : RawTx) :
    ∀ (acc : List GEntry) (k' : String × String × String × String × String),
      k' ∈ (addTx acc t).map (fun e => e.1) ↔
        k' ∈ acc.map (fun e => e.1) ∨ k' = keyOf t := by
  intro acc
  induction acc with
  | nil => intro k'; simp [addTx]
  | cons e rest ih =>
    intro k'
    obtain ⟨k0, s0, a0, c0⟩ := e
    by_cases h0 : k0 = keyOf t
    · subst h0
      simp [addTx]
      tauto
    · simp only [addTx, if_neg h0, List.map_cons, List.mem_cons, ih k']
      tauto

theorem addTx_nodup (t : RawTx) :
    ∀ acc : List GEntry, ((acc.map (fun e => e.1)).Nodup) →
      (((addTx acc t).map (fun e => e.1)).Nodup) := by
  intro acc
  induction acc with
  | nil => intro _; simp [addTx]
  | cons e rest ih =>
    intro hnd
    obtain ⟨k0, s0, a0, c0⟩ := e
    simp only [List.map_cons, List.nodup_cons] at hnd
    by_cases h0 : k0 = keyOf t
    · subst h0
      simp only [addTx, if_pos rfl]
      simpa using hnd
    · simp only [addTx, if_neg h0, List.map_cons, List.nodup_cons]
      refine ⟨?_, ih hnd.2⟩
      rw [addTx_keys_mem]
      rintro (h | h)
      · exact hnd.1 h
      · exact h0 h

theorem collect_nodup (ts : List RawTx) :
    (((collect ts).map (fun e => e.1)).Nodup) := by
  have main : ∀ (l : List RawTx) (acc : List GEntry),
      ((acc.map (fun e => e.1)).Nodup) →
      (((l.foldl addTx acc).map (fun e => e.1)).Nodup) := by
    intro l
    induction l with
    | nil => intro acc h; exact h
    | cons t rest ih =>
      intro acc h
      exact ih (addTx acc t) (addTx_nodup t acc h)
  exact main ts [] (by simp)

theorem find_of_mem_nodup :
    ∀ (l : List GEntry), ((l.map (fun e => e.1)).Nodup) →
      ∀ e ∈ l, findE l e.1 = some e := by
  intro l
  induction l with
  | nil => intro _ e he; exact absurd he (List.not_mem_nil e)
  | cons x rest ih =>
    intro hnd e he
    simp only [List.map_cons, List.nodup_cons] at hnd
    rcases List.mem_cons.mp he with rfl | hmem
    · simp [findE, List.find?_cons]
    · have hne : x.1 ≠ e.1 := by
        intro hx
        exact hnd.1 (hx ▸ List.mem_map_of_mem (fun e => e.1) hmem)
      simp only [findE, List.find?_cons, hne, decide_eq_true_eq]
      simpa [hne, findE] using ih hnd.2 e hmem

theorem gkey_mkG (e : GEntry) : gkeyOf (mkG e) = e.1 := rfl

theorem group_sorted (ts : List RawTx) : (group_transactions ts).Sorted gle :=
  List.sorted_insertionSort gle _

theorem group_perm (ts : List RawTx) :
    (group_transactions ts).Perm ((collect ts).map mkG) :=
  List.perm_insertionSort gle _

theorem countP_le_one_of_nodup_keys :
    ∀ (l : List GEntry), ((l.map (fun e => e.1)).Nodup) →
      ∀ k, l.countP (fun e => decide (e.1 = k)) ≤ 1 := by
  intro l
  induction l with
  | nil => intro _ k; simp
  | cons x rest ih =>
    intro hnd k
    simp only [List.map_cons, List.nodup_cons] at hnd
    rw [List.countP_cons]
    by_cases hx : x.1 = k
    · have hz : rest.countP (fun e => decide (e.1 = k)) = 0 := by
        rw [List.countP_eq_zero]
        intro a ha
        simp only [decide_eq_true_eq]
        intro hak
        apply hnd.1
        rw [hx, ← hak]
        exact List.mem_map_of_mem (fun e => e.1) ha
      simp [hx, hz]
    · have := ih hnd.2 k
      simp [hx]
      omega

/-- Each grouping key occurring in the input yields exactly one output row,
keys not occurring yield none. -/
theorem group_countP (ts : List RawTx) (k : String × String × String × String × String) :
    (group_transactions ts).countP (fun g => decide (gkeyOf g = k)) =
      if cnt ts k = 0 then 0 else 1 := by
  have hperm := (group_perm ts).countP_eq (fun g => decide (gkeyOf g = k))
  rw [hperm, List.countP_map]
  have hpred : ((fun g => decide (gkeyOf g = k)) ∘ mkG) =
      (fun e : GEntry => decide (e.1 = k)) := by
    funext e
    simp [Function.comp, gkey_mkG]
  rw [hpred]
  by_cases hc : cnt ts k = 0
  · rw [if_pos hc]
    rw [List.countP_eq_zero]
    intro e he
    simp only [decide_eq_true_eq]
    intro hek
    have := find_of_mem_nodup (collect ts) (collect_nodup ts) e he
    rw [hek, collect_find ts k, if_pos hc] at this
    exact Option.noConfusion this
  · rw [if_neg hc]
    have hfind := collect_find ts k
    rw [if_neg hc] at hfind
    have hmem : (k, sumSh ts k, sumAm ts k, cnt ts k) ∈ collect ts :=
      List.mem_of_find?_eq_some hfind
    have hpos : 0 < (collect ts).countP (fun e => decide (e.1 = k)) := by
      rw [List.countP_pos_iff]
      exact ⟨_, hmem, by simp⟩
    have hle := countP_le_one_of_nodup_keys (collect ts) (collect_nodup ts) k
    omega

/-- Every output row of the grouper carries the filtered sums and count of the
raw transactions with its key. -/
theorem group_mem_shape (ts : List RawTx) :
    ∀ g ∈ group_transactions ts,
      g.shares = sumSh ts (gkeyOf g) ∧ g.amount = sumAm ts (gkeyOf g) ∧
        g.grouped_count = cnt ts (gkeyOf g) ∧ cnt ts (gkeyOf g) ≠ 0 := by
  intro g hg
  have hg2 : g ∈ (collect ts).map mkG := (group_perm ts).mem_iff.mp hg
  obtain ⟨e, he, rfl⟩ := List.mem_map.mp hg2
  have hfind := find_of_mem_nodup (collect ts) (collect_nodup ts) e he
  rw [collect_find ts e.1] at hfind
  by_cases hc : cnt ts e.1 = 0
  · rw [if_pos hc] at hfind
    exact Option.noConfusion hfind
  · rw [if_neg hc] at hfind
    have he2 : e = (e.1, sumSh ts e.1, sumAm ts e.1, cnt ts e.1) :=
      (Option.some.inj hfind).symm
    rw [gkey_mkG]
    constructor
    · rw [he2]; rfl
    constructor
    · rw [he2]; rfl
    constructor
    · rw [he2]; rfl
    · exact hc

theorem cnt_ne_zero_of_mem {ts : List RawTx} {t : RawTx} (h : t ∈ ts) :
    cnt ts (keyOf t) ≠ 0 := by
  have hmem : t ∈ ts.filter (fun u => decide (keyOf u = keyOf t)) :=
    List.mem_filter.mpr ⟨h, by simp⟩
  have := List.ne_nil_of_mem hmem
  simp only [cnt]
  intro hlen
  exact this (List.eq_nil_of_length_eq_zero hlen)

/-- C3: grouping partitions the input by the exact key
`(date, broker, stock, type, currency)`, sums `shares` and `amount` per
partition, records the member count, and returns the rows sorted ascending by
`(date, broker, stock)`; a Buy and a Sell of the same instrument, date and
currency always yield two distinct grouped rows. -/
theorem grouping_partitions_sums_sorts (ts : List RawTx) :
    (group_transactions ts).Sorted gle ∧
    (∀ k, (group_transactions ts).countP (fun g => decide (gkeyOf g = k)) =
        if cnt ts k = 0 then 0 else 1) ∧
    (∀ g ∈ group_transactions ts,
        g.shares = sumSh ts (gkeyOf g) ∧ g.amount = sumAm ts (gkeyOf g) ∧
          g.grouped_count = cnt ts (gkeyOf g)) ∧
    (∀ t1 ∈ ts, ∀ t2 ∈ ts, t1.type = "Buy" → t2.type = "Sell" →
        t1.date = t2.date → t1.stock = t2.stock → t1.currency = t2.currency →
        ∃ g1 ∈ group_transactions ts, ∃ g2 ∈ group_transactions ts,
          g1 ≠ g2 ∧ gkeyOf g1 = keyOf t1 ∧ gkeyOf g2 = keyOf t2) := by
  refine ⟨group_sorted ts, group_countP ts, ?_, ?_⟩
  · intro g hg
    obtain ⟨h1, h2, h3, _⟩ := group_mem_shape ts g hg
    exact ⟨h1, h2, h3⟩
  · intro t1 h1 t2 h2 hb hs _ _ _
    have hk : keyOf t1 ≠ keyOf t2 := by
      intro he
      have : t1.type = t2.type := congrArg (fun k => k.2.2.2.1) he
      rw [hb, hs] at this
      exact absurd this (by decide)
    have hex1 : ∃ g ∈ group_transactions ts, gkeyOf g = keyOf t1 := by
      have hpos : 0 < (group_transactions ts).countP
          (fun g => decide (gkeyOf g = keyOf t1)) := by
        rw [group_countP ts, if_neg (cnt_ne_zero_of_mem h1)]
        omega
      obtain ⟨g, hg, hgk⟩ := List.countP_pos_iff.mp hpos
      exact ⟨g, hg, of_decide_eq_true hgk⟩
    have hex2 : ∃ g ∈ group_transactions ts, gkeyOf g = keyOf t2 := by
      have hpos : 0 < (group_transactions ts).countP
          (fun g => decide (gkeyOf g = keyOf t2)) := by
        rw [group_countP ts, if_neg (cnt_ne_zero_of_mem h2)]
        omega
      obtain ⟨g, hg, hgk⟩ := List.countP_pos_iff.mp hpos
      exact ⟨g, hg, of_decide_eq_true hgk⟩
    obtain ⟨g1, hg1, hk1⟩ := hex1
    obtain ⟨g2, hg2, hk2⟩ := hex2
    refine ⟨g1, hg1, g2, hg2, ?_, hk1, hk2⟩
    intro he
    exact hk (hk1 ▸ hk2 ▸ congrArg gkeyOf he)

def wTx1 : RawTx :=
  ⟨"2025-01-10", "Interactive Brokers", "ABC", "Buy", 100, "USD", qmk 1000 1⟩

def wTx2 : RawTx :=
  ⟨"2025-01-10", "Interactive Brokers", "ABC", "Sell", 40, "USD", qmk 400 1⟩

/-- Witness for the grouping theorem: a same-day Buy and Sell of `ABC` give two
distinct grouped rows. -/
theorem grouping_partitions_sums_sorts_witness :
    ∃ g1 ∈ group_transactions [wTx1, wTx2], ∃ g2 ∈ group_transactions [wTx1, wTx2],
      g1 ≠ g2 ∧ gkeyOf g1 = keyOf wTx1 ∧ gkeyOf g2 = keyOf wTx2 :=
  (grouping_partitions_sums_sorts [wTx1, wTx2]).2.2.2 wTx1 (by decide) wTx2 (by decide)
    rfl rfl rfl rfl rfl

/-- Re-expressing a grouped row as a singleton raw transaction, the second-pass
input of the idempotence property (specification section 8, item 1). -/
def toRaw (g : GroupedTx) : RawTx :=
  ⟨g.date, g.broker, g.stock, g.type, g.shares, g.currency, g.amount⟩

theorem keyOf_toRaw (g : GroupedTx) : keyOf (toRaw g) = gkeyOf g := rfl

theorem group_keys_nodup (ts : List RawTx) :
    ((group_transactions ts).map gkeyOf).Nodup := by
  have hperm := (group_perm ts).map gkeyOf
  rw [List.map_map] at hperm
  have hfun : (gkeyOf ∘ mkG) = (fun e : GEntry => e.1) := funext fun e => gkey_mkG e
  rw [hfun] at hperm
  exact hperm.nodup_iff.mpr (collect_nodup ts)

theorem addTx_append (t : RawTx) :
    ∀ acc : List GEntry, findE acc (keyOf t) = none →
      addTx acc t = acc ++ [(keyOf t, t.shares, t.amount, 1)] := by
  intro acc
  induction acc with
  | nil => intro _; simp [addTx]
  | cons e rest ih =>
    intro h
    obtain ⟨k0, s0, a0, c0⟩ := e
    simp only [findE, List.find?_cons] at h
    by_cases he : k0 = keyOf t
    · simp [he] at h
    · have h3 : List.find? (fun e => decide (e.1 = keyOf t)) rest = none := by
        simpa [he] using h
      simp only [addTx, if_neg he, List.cons_append]
      rw [ih h3]

theorem foldl_addTx_append :
    ∀ (ts : List RawTx) (acc : List GEntry),
      (∀ t ∈ ts, findE acc (keyOf t) = none) →
      ((ts.map keyOf).Nodup) →
      ts.foldl addTx acc =
        acc ++ ts.map (fun t => (keyOf t, t.shares, t.amount, 1)) := by
  intro ts
  induction ts with
  | nil => intro acc _ _; simp
  | cons t rest ih =>
    intro acc hdisj hnd
    simp only [List.map_cons, List.nodup_cons] at hnd
    rw [List.foldl_cons, addTx_append t acc (hdisj t (by simp))]
    rw [ih (acc ++ [(keyOf t, t.shares, t.amount, 1)]) ?_ hnd.2]
    · simp
    · intro u hu
      have h1 : findE acc (keyOf u) = none := hdisj u (List.mem_cons_of_mem t hu)
      have h2 : keyOf u ≠ keyOf t := by
        intro he
        exact hnd.1 (he ▸ List.mem_map_of_mem keyOf hu)
      simp only [findE, List.find?_append]
      simp only [findE] at h1
      rw [h1]
      have h3 : keyOf t ≠ keyOf u := fun hx => h2 hx.symm
      simp [List.find?_cons, h3]

theorem collect_of_nodup (ts : List RawTx) (h : (ts.map keyOf).Nodup) :
    collect ts = ts.map (fun t => (keyOf t, t.shares, t.amount, 1)) := by
  have := foldl_addTx_append ts [] (fun t _ => rfl) h
  simpa [collect] using this

/-- The second grouping pass is a permutation of the first pass with every
member count reset to one. -/
theorem regroup_perm (ts : List RawTx) :
    (group_transactions ((group_transactions ts).map toRaw)).Perm
      ((group_transactions ts).map
        (fun g => mkG (gkeyOf g, g.shares, g.amount, 1))) := by
  have hnd : (((group_transactions ts).map toRaw).map keyOf).Nodup := by
    rw [List.map_map]
    have hfun : (keyOf ∘ toRaw) = gkeyOf := funext fun g => keyOf_toRaw g
    rw [hfun]
    exact group_keys_nodup ts
  have hperm := group_perm ((group_transactions ts).map toRaw)
  rw [collect_of_nodup _ hnd] at hperm
  rw [List.map_map, List.map_map] at hperm
  exact hperm

theorem sum_ones (l : List GroupedTx) :
    (l.map (fun _ => (1 : Nat))).sum = l.length := by
  induction l with
  | nil => simp
  | cons x rest ih => simp [ih, Nat.add_comm]

/-- C6: grouping is idempotent.  Regrouping the grouped output, re-expressed as
singleton raw transactions, yields one row per original row with identical key,
shares sum and amount sum, member count one each, and the second-pass member
counts sum to the number of rows fed back in. -/
theorem grouping_idempotent (ts : List RawTx) :
    (∀ k, (group_transactions ((group_transactions ts).map toRaw)).countP
            (fun g => decide (gkeyOf g = k)) =
          (group_transactions ts).countP (fun g => decide (gkeyOf g = k))) ∧
    (∀ g2 ∈ group_transactions ((group_transactions ts).map toRaw),
        ∃ g ∈ group_transactions ts,
          gkeyOf g = gkeyOf g2 ∧ g2.shares = g.shares ∧ g2.amount = g.amount ∧
            g2.grouped_count = 1) ∧
    ((group_transactions ((group_transactions ts).map toRaw)).map
        GroupedTx.grouped_count).sum = (group_transactions ts).length := by
  refine ⟨?_, ?_, ?_⟩
  · intro k
    rw [(regroup_perm ts).countP_eq, List.countP_map]
    rfl
  · intro g2 hg2
    have := (regroup_perm ts).mem_iff.mp hg2
    obtain ⟨g, hg, rfl⟩ := List.mem_map.mp this
    exact ⟨g, hg, rfl, rfl, rfl, rfl⟩
  · have hperm := (regroup_perm ts).map GroupedTx.grouped_count
    rw [hperm.sum_eq, List.map_map]
    have hfun : (GroupedTx.grouped_count ∘ fun g => mkG (gkeyOf g, g.shares, g.amount, 1)) =
        (fun _ : GroupedTx => (1 : Nat)) := rfl
    rw [hfun, sum_ones]

def gW : GroupedTx :=
  ⟨"2025-01-10", "Interactive Brokers", "ABC", "Buy", 100, "USD", qmk 1000 1, 1⟩

/-- Witness for the idempotence theorem at a concrete two-row input. -/
theorem grouping_idempotent_witness :
    ∃ g ∈ group_transactions [wTx1, wTx2],
      gkeyOf g = gkeyOf gW ∧ gW.shares = g.shares ∧ gW.amount = g.amount ∧
        gW.grouped_count = 1 :=
  (grouping_idempotent [wTx1, wTx2]).2.1 gW (by decide)

/-! ## Tax-engine lemmas -/

/-- The taxed row for one grouped transaction, defaulting when the rate lookup
fails (the defaulted case never occurs on a successful run). -/
def taxRowD (rates : List (String × List (String × Rat))) (t : GroupedTx) : TaxedTx :=
  match rateFor rates t with
  | some r => mkTaxed t r
  | none => default

theorem calc_ok_rates {ts : List GroupedTx}
    {rates : List (String × List (String × Rat))} {res : List TaxedTx}
    (h : calculate_tob ts rates = .ok res) :
    ∀ t ∈ ts, (rateFor rates t).isSome := by
  induction ts generalizing res with
  | nil => intro t ht; exact absurd ht (List.not_mem_nil t)
  | cons t0 rest ih =>
    intro t ht
    simp only [calculate_tob] at h
    cases hr : rateFor rates t0 with
    | none => rw [hr] at h; exact Except.noConfusion h
    | some r =>
      rw [hr] at h
      cases hc : calculate_tob rest rates with
      | error e => rw [hc] at h; exact Except.noConfusion h
      | ok l =>
        rw [hc] at h
        rcases List.mem_cons.mp ht with rfl | hmem
        · simp [hr]
        · exact ih hc t hmem

theorem calc_ok_map {ts : List GroupedTx}
    {rates : List (String × List (String × Rat))} {res : List TaxedTx}
    (h : calculate_tob ts rates = .ok res) :
    res = ts.map (taxRowD rates) := by
  induction ts generalizing res with
  | nil =>
    simp only [calculate_tob] at h
    simpa using (Except.ok.inj h).symm
  | cons t0 rest ih =>
    simp only [calculate_tob] at h
    cases hr : rateFor rates t0 with
    | none => rw [hr] at h; exact Except.noConfusion h
    | some r =>
      rw [hr] at h
      cases hc : calculate_tob rest rates with
      | error e => rw [hc] at h; exact Except.noConfusion h
      | ok l =>
        rw [hc] at h
        have hres : res = mkTaxed t0 r :: l := (Except.ok.inj h).symm
        rw [hres, List.map_cons, ih hc]
        have : taxRowD rates t0 = mkTaxed t0 r := by
          simp [taxRowD, hr]
        rw [this]

theorem calc_ok_of_forall {ts : List GroupedTx}
    {rates : List (String × List (String × Rat))}
    (h : ∀ t ∈ ts, (rateFor rates t).isSome) :
    calculate_tob ts rates = .ok (ts.map (taxRowD rates)) := by
  induction ts with
  | nil => rfl
  | cons t0 rest ih =>
    have h0 := h t0 (by simp)
    obtain ⟨r, hr⟩ := Option.isSome_iff_exists.mp h0
    have hrest := ih (fun t ht => h t (List.mem_cons_of_mem t0 ht))
    simp only [calculate_tob, hr, hrest, List.map_cons]
    have : taxRowD rates t0 = mkTaxed t0 r := by
      simp [taxRowD, hr]
    rw [this]

/-- C1: for every taxed row the engine produces, the converted amount is
`round2(amount / rate)` and the tax is `round2(eur_amount * 0.0035)`
(`qdiv`, `qmul` are exact rational division and multiplication, `tobRate` is
`35/10000 = 0.0035`); this is independent of processing order — permuting the
input permutes the output — and the run totals are the plain, unrounded sums
of the per-row rounded `eur_amount` and `tob` values. -/
theorem tax_rounding_consistency (ts : List GroupedTx)
    (rates : List (String × List (String × Rat))) (res : List TaxedTx)
    (h : calculate_tob ts rates = .ok res) :
    (∀ x ∈ res, x.eur_amount = round2 (qdiv x.amount x.rate) ∧
        x.tob = round2 (qmul x.eur_amount tobRate)) ∧
    (∀ ts2, ts.Perm ts2 →
        ∃ res2, calculate_tob ts2 rates = .ok res2 ∧ res.Perm res2) ∧
    processTotals res =
      ((res.map (fun x => round2 (qdiv x.amount x.rate))).foldl qadd (qmk 0 1),
       (res.map (fun x =>
          round2 (qmul (round2 (qdiv x.amount x.rate)) tobRate))).foldl qadd (qmk 0 1)) := by
  have hrow : ∀ x ∈ res, x.eur_amount = round2 (qdiv x.amount x.rate) ∧
      x.tob = round2 (qmul x.eur_amount tobRate) := by
    intro x hx
    rw [calc_ok_map h] at hx
    obtain ⟨t, ht, rfl⟩ := List.mem_map.mp hx
    have hs := calc_ok_rates h t ht
    obtain ⟨r, hr⟩ := Option.isSome_iff_exists.mp hs
    simp [taxRowD, hr, mkTaxed]
  refine ⟨hrow, ?_, ?_⟩
  · intro ts2 hperm
    refine ⟨ts2.map (taxRowD rates), calc_ok_of_forall ?_, ?_⟩
    · intro t ht
      exact calc_ok_rates h t (hperm.mem_iff.mpr ht)
    · rw [calc_ok_map h]
      exact hperm.map (taxRowD rates)
  · have h1 : res.map TaxedTx.eur_amount =
        res.map (fun x => round2 (qdiv x.amount x.rate)) :=
      List.map_congr_left (fun x hx => (hrow x hx).1)
    have h2 : res.map TaxedTx.tob =
        res.map (fun x => round2 (qmul (round2 (qdiv x.amount x.rate)) tobRate)) :=
      List.map_congr_left (fun x hx => by
        rw [(hrow x hx).2, (hrow x hx).1])
    simp only [processTotals, h1, h2]

def gB : GroupedTx :=
  ⟨"2025-01-10", "Interactive Brokers", "ABC", "Buy", 150, "USD", qmk 1500 1, 2⟩

def rates0 : List (String × List (String × Rat)) :=
  [("2025-01-10", [("EUR", qmk 1 1), ("USD", qmk 21 20)])]

def xW : TaxedTx :=
  ⟨"2025-01-10", "Interactive Brokers", "ABC", "Buy", 150, "USD", qmk 1500 1, 2,
    qmk 21 20, qmk 142857 100, qmk 5 1⟩

/-- Witness: the specification's own end-to-end example, 1500 USD at rate 1.05
gives `eur_amount = 1428.57` and `tob = 5.00`. -/
theorem tax_rounding_consistency_witness :
    xW.eur_amount = round2 (qdiv xW.amount xW.rate) ∧
      xW.tob = round2 (qmul xW.eur_amount tobRate) :=
  (tax_rounding_consistency [gB] rates0 [xW] (by decide)).1 xW (by decide)

/-- C10: the tax engine is frame-preserving.  On a successful run the output
has the same length and order as the input, each output row repeats every
field of its input row unchanged, and the added `rate` field is exactly the
looked-up rate (with `eur_amount` and `tob` the only other additions). -/
theorem tax_engine_frame (ts : List GroupedTx)
    (rates : List (String × List (String × Rat))) (res : List TaxedTx)
    (h : calculate_tob ts rates = .ok res) :
    List.Forall₂ (fun (t : GroupedTx) (x : TaxedTx) =>
      x.date = t.date ∧ x.broker = t.broker ∧ x.stock = t.stock ∧
        x.type = t.type ∧ x.shares = t.shares ∧ x.currency = t.currency ∧
        x.amount = t.amount ∧ x.grouped_count = t.grouped_count ∧
        rateFor rates t = some x.rate) ts res := by
  rw [calc_ok_map h, List.forall₂_map_right_iff, List.forall₂_same]
  intro t ht
  have hs := calc_ok_rates h t ht
  obtain ⟨r, hr⟩ := Option.isSome_iff_exists.mp hs
  simp [taxRowD, hr, mkTaxed]

/-- Witness for the frame theorem at the concrete one-row run. -/
theorem tax_engine_frame_witness :
    List.Forall₂ (fun (t : GroupedTx) (x : TaxedTx) =>
      x.date = t.date ∧ x.broker = t.broker ∧ x.stock = t.stock ∧
        x.type = t.type ∧ x.shares = t.shares ∧ x.currency = t.currency ∧
        x.amount = t.amount ∧ x.grouped_count = t.grouped_count ∧
        rateFor rates0 t = some x.rate) [gB] [xW] :=
  tax_engine_frame [gB] rates0 [xW] (by decide)

/-! ## Rate resolver (`fetch_ecb_rates` / `get_rate_with_fallback`,
lines 26-87).  Dates are day numbers; going back `i` calendar days is
subtracting `i`.  The published feed is the document-order list of
`Cube time=...` elements, each with its list of `(currency, rate)` cubes. -/

abbrev RateRow := List (String × Rat)

/-- Lines 57 / 80: start the row from `{'EUR': 1.0}` and then add the
published cubes (a published `EUR` cube would overwrite the injection, since
`dget` is last-write-wins). -/
def mkRow (cubes : RateRow) : RateRow := ("EUR", qmk 1 1) :: cubes

/-- Scanning the parsed feed for the cube of one date (first match wins, as
the `for` loops of lines 54 and 78 fire on the first matching element). -/
def findCube (pub : List (Int × RateRow)) (d : Int) : Option RateRow :=
  (pub.find? (fun e => decide (e.1 = d))).map (fun e => e.2)

/-- `get_rate_with_fallback` (lines 70-87): try `date - 1` through `date - 5`
in order, returning the first published row with the reference currency
injected; `none` models the `ValueError` of line 87. -/
def get_rate_with_fallback (pub : List (Int × RateRow)) (date : Int) : Option RateRow :=
  ((findCube pub (date - 1)).map mkRow) <|>
    (((findCube pub (date - 2)).map mkRow) <|>
      (((findCube pub (date - 3)).map mkRow) <|>
        (((findCube pub (date - 4)).map mkRow) <|>
          ((findCube pub (date - 5)).map mkRow))))

/-- Lines 54-61: the directly published part of the table, restricted to the
requested dates. -/
def buildDirect (pub : List (Int × RateRow)) (dates_needed : List Int) :
    List (Int × RateRow) :=
  pub.foldl (fun acc e => if e.1 ∈ dates_needed then upsert acc e.1 (mkRow e.2) else acc) []

/-- Lines 63-66: fill every still-missing requested date from the fallback;
a date with no fallback row aborts the whole resolution, carrying the date of
the `ValueError` message of line 87. -/
def fetchGo (pub : List (Int × RateRow)) :
    List Int → List (Int × RateRow) → Except Int (List (Int × RateRow))
  | [], acc => .ok acc
  | d :: rest, acc =>
    if (dget acc d).isSome then fetchGo pub rest acc
    else
      match get_rate_with_fallback pub d with
      | some r => fetchGo pub rest (upsert acc d r)
      | none => .error d

/-- `fetch_ecb_rates` (lines 26-68) after the XML parse: build the direct
table, then resolve missing dates. -/
def fetch_ecb_rates (pub : List (Int × RateRow)) (dates_needed : List Int) :
    Except Int (List (Int × RateRow)) :=
  fetchGo pub dates_needed (buildDirect pub dates_needed)

/-! ## Dictionary lemmas -/

theorem dget_upsert_ne {α β : Type} [DecidableEq α] (l : List (α × β))
    (k k' : α) (v : β) (h : k' ≠ k) : dget (upsert l k v) k' = dget l k' := by
  induction l with
  | nil => simp [upsert, dget, Ne.symm h]
  | cons e rest ih =>
    by_cases he : e.1 = k
    · simp only [upsert, if_pos he, dget]
      rw [← he]
      have hne : ¬ (k = k') := fun hx => h hx.symm
      cases dget rest k' with
      | some v0 => simp
      | none => simp [he, hne]
    · simp only [upsert, if_neg he, dget, ih]

theorem dget_mem {α β : Type} [DecidableEq α] (l : List (α × β)) (k : α) (v : β)
    (h : dget l k = some v) : (k, v) ∈ l := by
  induction l with
  | nil => exact Option.noConfusion h
  | cons e rest ih =>
    simp only [dget] at h
    cases hr : dget rest k with
    | some v0 =>
      rw [hr] at h
      exact List.mem_cons_of_mem e (ih (hr.trans h))
    | none =>
      rw [hr] at h
      by_cases he : e.1 = k
      · rw [if_pos he] at h
        have : e = (k, v) := by
          obtain ⟨e1, e2⟩ := e
          simp only at he
          simp only [Option.some.injEq] at h
          rw [he, h]
        exact this ▸ List.mem_cons_self e rest
      · rw [if_neg he] at h
        exact Option.noConfusion h

theorem dget_none_of_absent {α β : Type} [DecidableEq α] (l : List (α × β))
    (k : α) (h : ∀ p ∈ l, p.1 ≠ k) : dget l k = none := by
  induction l with
  | nil => rfl
  | cons e rest ih =>
    simp only [dget]
    rw [ih (fun p hp => h p (List.mem_cons_of_mem e hp))]
    simp [h e (List.mem_cons_self e rest)]

theorem mem_upsert {α β : Type} [DecidableEq α] {l : List (α × β)} {k : α}
    {v : β} {x : α × β} (h : x ∈ upsert l k v) : x ∈ l ∨ x = (k, v) := by
  induction l with
  | nil => simpa [upsert] using h
  | cons e rest ih =>
    by_cases he : e.1 = k
    · simp only [upsert, if_pos he] at h
      rcases List.mem_cons.mp h with rfl | hm
      · exact Or.inr rfl
      · exact Or.inl (List.mem_cons_of_mem e hm)
    · simp only [upsert, if_neg he] at h
      rcases List.mem_cons.mp h with rfl | hm
      · exact Or.inl (List.mem_cons_self x rest)
      · rcases ih hm with h1 | h1
        · exact Or.inl (List.mem_cons_of_mem e h1)
        · exact Or.inr h1

/-! ## Fallback and fetch lemmas -/

theorem findCube_mem {pub : List (Int × RateRow)} {d : Int} {cs : RateRow}
    (h : findCube pub d = some cs) : ∃ e ∈ pub, e.2 = cs := by
  simp only [findCube] at h
  cases hf : pub.find? (fun e => decide (e.1 = d)) with
  | none => rw [hf] at h; exact Option.noConfusion h
  | some e =>
    rw [hf] at h
    exact ⟨e, List.mem_of_find?_eq_some hf, Option.some.inj h⟩

theorem fallback_nearest (pub : List (Int × RateRow)) (d : Int) (j : Int)
    (r : RateRow) (h1 : 1 ≤ j) (h5 : j ≤ 5)
    (hgap : ∀ i : Int, 1 ≤ i → i < j → findCube pub (d - i) = none)
    (hfound : findCube pub (d - j) = some r) :
    get_rate_with_fallback pub d = some (mkRow r) := by
  interval_cases j
  · simp [get_rate_with_fallback, hfound]
  · have g1 := hgap 1 (by norm_num) (by norm_num)
    simp [get_rate_with_fallback, g1, hfound]
  · have g1 := hgap 1 (by norm_num) (by norm_num)
    have g2 := hgap 2 (by norm_num) (by norm_num)
    simp [get_rate_with_fallback, g1, g2, hfound]
  · have g1 := hgap 1 (by norm_num) (by norm_num)
    have g2 := hgap 2 (by norm_num) (by norm_num)
    have g3 := hgap 3 (by norm_num) (by norm_num)
    simp [get_rate_with_fallback, g1, g2, g3, hfound]
  · have g1 := hgap 1 (by norm_num) (by norm_num)
    have g2 := hgap 2 (by norm_num) (by norm_num)
    have g3 := hgap 3 (by norm_num) (by norm_num)
    have g4 := hgap 4 (by norm_num) (by norm_num)
    simp [get_rate_with_fallback, g1, g2, g3, g4, hfound]

theorem fallback_none (pub : List (Int × RateRow)) (d : Int)
    (h : ∀ i : Int, 1 ≤ i → i ≤ 5 → findCube pub (d - i) = none) :
    get_rate_with_fallback pub d = none := by
  have g1 := h 1 (by norm_num) (by norm_num)
  have g2 := h 2 (by norm_num) (by norm_num)
  have g3 := h 3 (by norm_num) (by norm_num)
  have g4 := h 4 (by norm_num) (by norm_num)
  have g5 := h 5 (by norm_num) (by norm_num)
  simp [get_rate_with_fallback, g1, g2, g3, g4, g5]

theorem fallback_shape {pub : List (Int × RateRow)} {d : Int} {r : RateRow}
    (h : get_rate_with_fallback pub d = some r) :
    ∃ cs, (∃ e ∈ pub, e.2 = cs) ∧ r = mkRow cs := by
  simp only [get_rate_with_fallback] at h
  cases h1 : findCube pub (d - 1) with
  | some cs =>
    rw [h1] at h
    simp only [Option.map_some', Option.some_orElse, Option.some.injEq] at h
    exact ⟨cs, findCube_mem h1, h.symm⟩
  | none =>
  rw [h1] at h
  simp only [Option.map_none', Option.none_orElse] at h
  cases h2 : findCube pub (d - 2) with
  | some cs =>
    rw [h2] at h
    simp only [Option.map_some', Option.some_orElse, Option.some.injEq] at h
    exact ⟨cs, findCube_mem h2, h.symm⟩
  | none =>
  rw [h2] at h
  simp only [Option.map_none', Option.none_orElse] at h
  cases h3 : findCube pub (d - 3) with
  | some cs =>
    rw [h3] at h
    simp only [Option.map_some', Option.some_orElse, Option.some.injEq] at h
    exact ⟨cs, findCube_mem h3, h.symm⟩
  | none =>
  rw [h3] at h
  simp only [Option.map_none', Option.none_orElse] at h
  cases h4 : findCube pub (d - 4) with
  | some cs =>
    rw [h4] at h
    simp only [Option.map_some', Option.some_orElse, Option.some.injEq] at h
    exact ⟨cs, findCube_mem h4, h.symm⟩
  | none =>
  rw [h4] at h
  simp only [Option.map_none', Option.none_orElse] at h
  cases h5 : findCube pub (d - 5) with
  | some cs =>
    rw [h5] at h
    simp only [Option.map_some', Option.some.injEq] at h
    exact ⟨cs, findCube_mem h5, h.symm⟩
  | none =>
    rw [h5] at h
    simp at h

theorem dget_upsert_self_of_none {α β : Type} [DecidableEq α] (l : List (α × β))
    (k : α) (v : β) (h : dget l k = none) : dget (upsert l k v) k = some v := by
  induction l with
  | nil => simp [upsert, dget]
  | cons e rest ih =>
    simp only [dget] at h
    cases hr : dget rest k with
    | some w => rw [hr] at h; exact Option.noConfusion h
    | none =>
      rw [hr] at h
      by_cases he : e.1 = k
      · rw [if_pos he] at h
        exact Option.noConfusion h
      · simp only [upsert, if_neg he, dget, ih hr]

theorem fetchGo_persist (pub : List (Int × RateRow)) :
    ∀ (ds : List Int) (acc tbl : List (Int × RateRow)) (k : Int) (v : RateRow),
      fetchGo pub ds acc = .ok tbl → dget acc k = some v → dget tbl k = some v := by
  intro ds
  induction ds with
  | nil =>
    intro acc tbl k v h hv
    simp only [fetchGo] at h
    exact (Except.ok.inj h) ▸ hv
  | cons d rest ih =>
    intro acc tbl k v h hv
    simp only [fetchGo] at h
    by_cases hs : (dget acc d).isSome
    · rw [if_pos hs] at h
      exact ih acc tbl k v h hv
    · rw [if_neg hs] at h
      cases hf : get_rate_with_fallback pub d with
      | none => rw [hf] at h; exact Except.noConfusion h
      | some r =>
        rw [hf] at h
        have hne : k ≠ d := by
          intro he
          subst he
          rw [hv] at hs
          exact hs rfl
        have hv2 : dget (upsert acc d r) k = some v := by
          rw [dget_upsert_ne acc d k r hne]
          exact hv
        exact ih (upsert acc d r) tbl k v h hv2

theorem fetchGo_resolves (pub : List (Int × RateRow)) :
    ∀ (ds : List Int) (acc tbl : List (Int × RateRow)) (d : Int),
      d ∈ ds → fetchGo pub ds acc = .ok tbl → dget acc d = none →
      ∃ r, get_rate_with_fallback pub d = some r ∧ dget tbl d = some r := by
  intro ds
  induction ds with
  | nil => intro acc tbl d hd; exact absurd hd (List.not_mem_nil d)
  | cons d0 rest ih =>
    intro acc tbl d hd h hnone
    simp only [fetchGo] at h
    by_cases hs : (dget acc d0).isSome
    · rw [if_pos hs] at h
      have hne : d ≠ d0 := by
        intro he
        rw [← he, hnone] at hs
        simp at hs
      have hd2 : d ∈ rest := by
        rcases List.mem_cons.mp hd with he | hm
        · exact absurd he hne
        · exact hm
      exact ih acc tbl d hd2 h hnone
    · rw [if_neg hs] at h
      cases hf : get_rate_with_fallback pub d0 with
      | none => rw [hf] at h; exact Except.noConfusion h
      | some r =>
        rw [hf] at h
        by_cases hdd : d = d0
        · subst hdd
          refine ⟨r, hf, ?_⟩
          exact fetchGo_persist pub rest (upsert acc d r) tbl d r h
            (dget_upsert_self_of_none acc d r hnone)
        · have hd2 : d ∈ rest := by
            rcases List.mem_cons.mp hd with he | hm
            · exact absurd he hdd
            · exact hm
          have hnone2 : dget (upsert acc d0 r) d = none := by
            rw [dget_upsert_ne acc d0 d r hdd]
            exact hnone
          exact ih (upsert acc d0 r) tbl d hd2 h hnone2

theorem fetchGo_error (pub : List (Int × RateRow)) :
    ∀ (ds : List Int) (acc : List (Int × RateRow)),
      (∃ d ∈ ds, dget acc d = none ∧ get_rate_with_fallback pub d = none) →
      ∃ e ∈ ds, fetchGo pub ds acc = .error e ∧
        get_rate_with_fallback pub e = none := by
  intro ds
  induction ds with
  | nil =>
    intro acc h
    obtain ⟨d, hd, _⟩ := h
    exact absurd hd (List.not_mem_nil d)
  | cons d0 rest ih =>
    intro acc h
    obtain ⟨d, hd, hnone, hfb⟩ := h
    by_cases hdd : d = d0
    · subst hdd
      have hs : ¬ (dget acc d).isSome = true := by
        rw [hnone]; simp
      refine ⟨d, by simp, ?_, hfb⟩
      simp only [fetchGo, if_neg hs, hfb]
    · have hd2 : d ∈ rest := by
        rcases List.mem_cons.mp hd with he | hm
        · exact absurd he hdd
        · exact hm
      by_cases hs : (dget acc d0).isSome
      · obtain ⟨e, he, herr, hfe⟩ := ih acc ⟨d, hd2, hnone, hfb⟩
        refine ⟨e, List.mem_cons_of_mem d0 he, ?_, hfe⟩
        simp only [fetchGo, if_pos hs]
        exact herr
      · cases hf : get_rate_with_fallback pub d0 with
        | none =>
          refine ⟨d0, by simp, ?_, hf⟩
          simp only [fetchGo, if_neg hs, hf]
        | some r =>
          have hnone2 : dget (upsert acc d0 r) d = none := by
            rw [dget_upsert_ne acc d0 d r hdd]
            exact hnone
          obtain ⟨e, he, herr, hfe⟩ := ih (upsert acc d0 r) ⟨d, hd2, hnone2, hfb⟩
          refine ⟨e, List.mem_cons_of_mem d0 he, ?_, hfe⟩
          simp only [fetchGo, if_neg hs, hf]
          exact herr

theorem buildDirect_absent (pub : List (Int × RateRow)) (needed : List Int)
    (d : Int) (h : findCube pub d = none) :
    dget (buildDirect pub needed) d = none := by
  have habs : ∀ e ∈ pub, e.1 ≠ d := by
    intro e he hed
    have h2 : (pub.find? (fun e => decide (e.1 = d))) = none := by
      simpa [findCube] using h
    have h3 := List.find?_eq_none.mp h2 e he
    simp [hed] at h3
  have main : ∀ (ps : List (Int × RateRow)) (acc : List (Int × RateRow)),
      (∀ e ∈ ps, e.1 ≠ d) → dget acc d = none →
      dget (ps.foldl (fun acc e =>
        if e.1 ∈ needed then upsert acc e.1 (mkRow e.2) else acc) acc) d = none := by
    intro ps
    induction ps with
    | nil => intro acc _ hacc; exact hacc
    | cons e rest ih =>
      intro acc hb hacc
      rw [List.foldl_cons]
      refine ih _ (fun x hx => hb x (List.mem_cons_of_mem e hx)) ?_
      by_cases hm : e.1 ∈ needed
      · rw [if_pos hm, dget_upsert_ne acc e.1 d (mkRow e.2)
          (fun he => (hb e (List.mem_cons_self e rest)) he.symm)]
        exact hacc
      · rw [if_neg hm]; exact hacc
  exact main pub [] habs rfl

theorem buildDirect_mem (pub : List (Int × RateRow)) (needed : List Int) :
    ∀ x ∈ buildDirect pub needed, ∃ e ∈ pub, x = (e.1, mkRow e.2) := by
  have main : ∀ (ps : List (Int × RateRow)) (acc : List (Int × RateRow)),
      (∀ x ∈ acc, ∃ e ∈ pub, x = (e.1, mkRow e.2)) →
      (∀ e ∈ ps, e ∈ pub) →
      ∀ x ∈ (ps.foldl (fun acc e =>
          if e.1 ∈ needed then upsert acc e.1 (mkRow e.2) else acc) acc),
        ∃ e ∈ pub, x = (e.1, mkRow e.2) := by
    intro ps
    induction ps with
    | nil => intro acc hacc _ x hx; exact hacc x hx
    | cons e rest ih =>
      intro acc hacc hsub x hx
      rw [List.foldl_cons] at hx
      refine ih _ ?_ (fun u hu => hsub u (List.mem_cons_of_mem e hu)) x hx
      intro y hy
      by_cases hm : e.1 ∈ needed
      · rw [if_pos hm] at hy
        rcases mem_upsert hy with h1 | h1
        · exact hacc y h1
        · exact ⟨e, hsub e (List.mem_cons_self e rest), h1⟩
      · rw [if_neg hm] at hy
        exact hacc y hy
  exact main pub [] (by intro x hx; exact absurd hx (List.not_mem_nil x))
    (fun e he => he)

theorem fetchGo_mem (pub : List (Int × RateRow)) :
    ∀ (ds : List Int) (acc tbl : List (Int × RateRow)),
      fetchGo pub ds acc = .ok tbl →
      ∀ x ∈ tbl, x ∈ acc ∨
        ∃ d r, get_rate_with_fallback pub d = some r ∧ x = (d, r) := by
  intro ds
  induction ds with
  | nil =>
    intro acc tbl h x hx
    simp only [fetchGo] at h
    exact Or.inl ((Except.ok.inj h) ▸ hx)
  | cons d0 rest ih =>
    intro acc tbl h x hx
    simp only [fetchGo] at h
    by_cases hs : (dget acc d0).isSome
    · rw [if_pos hs] at h
      exact ih acc tbl h x hx
    · rw [if_neg hs] at h
      cases hf : get_rate_with_fallback pub d0 with
      | none => rw [hf] at h; exact Except.noConfusion h
      | some r =>
        rw [hf] at h
        rcases ih (upsert acc d0 r) tbl h x hx with h1 | h1
        · rcases mem_upsert h1 with h2 | h2
          · exact Or.inl h2
          · exact Or.inr ⟨d0, r, hf, h2⟩
        · exact Or.inr h1

/-- C2: for a requested date absent from the published set, the resolver
searches exactly 1 through 5 days back and reuses the full row of the nearest
published prior date (with the reference currency injected); with no published
date within 5 days the per-date fallback fails and the whole resolution
returns an error carrying a date that has no fallback row — no table at all. -/
theorem rate_fallback_bound (pub : List (Int × RateRow)) (d : Int) :
    (∀ (j : Int) (r : RateRow), 1 ≤ j → j ≤ 5 →
        (∀ i : Int, 1 ≤ i → i < j → findCube pub (d - i) = none) →
        findCube pub (d - j) = some r →
        get_rate_with_fallback pub d = some (mkRow r)) ∧
    ((∀ i : Int, 1 ≤ i → i ≤ 5 → findCube pub (d - i) = none) →
        get_rate_with_fallback pub d = none) ∧
    (∀ (dates_needed : List Int) (tbl : List (Int × RateRow)) (r : RateRow),
        d ∈ dates_needed → findCube pub d = none →
        fetch_ecb_rates pub dates_needed = .ok tbl →
        get_rate_with_fallback pub d = some r → dget tbl d = some r) ∧
    (∀ dates_needed : List Int, d ∈ dates_needed → findCube pub d = none →
        (∀ i : Int, 1 ≤ i → i ≤ 5 → findCube pub (d - i) = none) →
        ∃ e ∈ dates_needed, fetch_ecb_rates pub dates_needed = .error e ∧
          get_rate_with_fallback pub e = none) := by
  refine ⟨fun j r h1 h5 hgap hf => fallback_nearest pub d j r h1 h5 hgap hf,
    fallback_none pub d, ?_, ?_⟩
  · intro needed tbl r hd habsent hok hfb
    have hdir : dget (buildDirect pub needed) d = none :=
      buildDirect_absent pub needed d habsent
    obtain ⟨r2, hr2, htbl⟩ := fetchGo_resolves pub needed
      (buildDirect pub needed) tbl d hd hok hdir
    rw [hfb] at hr2
    rw [Option.some.inj hr2]
    exact htbl
  · intro needed hd habsent hnofb
    have hdir : dget (buildDirect pub needed) d = none :=
      buildDirect_absent pub needed d habsent
    exact fetchGo_error pub needed (buildDirect pub needed)
      ⟨d, hd, hdir, fallback_none pub d hnofb⟩

/-- Witness: with only day 10 published, day 13 resolves to day 10's row
(3 days back, nearest), and a request for day 20 fails naming day 20. -/
theorem rate_fallback_bound_witness :
    get_rate_with_fallback [((10 : Int), [("USD", qmk 2 1)])] 13 =
      some (mkRow [("USD", qmk 2 1)]) ∧
    (∃ e ∈ [(20 : Int)],
        fetch_ecb_rates [((10 : Int), [("USD", qmk 2 1)])] [20] = .error e ∧
          get_rate_with_fallback [((10 : Int), [("USD", qmk 2 1)])] e = none) :=
  ⟨(rate_fallback_bound [((10 : Int), [("USD", qmk 2 1)])] 13).1 3
      [("USD", qmk 2 1)] (by norm_num) (by norm_num)
      (fun i hi1 hi3 => by interval_cases i <;> decide) (by decide),
    (rate_fallback_bound [((10 : Int), [("USD", qmk 2 1)])] 20).2.2.2 [20]
      (by decide) (by decide)
      (fun i hi1 hi5 => by interval_cases i <;> decide)⟩

theorem qdiv_one (a : Rat) : qdiv a (qmk 1 1) = a := by
  rw [qdiv_eq, qmk_eq]
  norm_num

theorem round2_qmk_cent (n : Int) : round2 (qmk n 100) = qmk n 100 := by
  rw [qmk_eq]
  push_cast
  exact round2_cent n

theorem mkRow_eur {cs : RateRow} (h : ∀ p ∈ cs, p.1 ≠ "EUR") :
    dget (mkRow cs) "EUR" = some (qmk 1 1) := by
  simp only [mkRow, dget, dget_none_of_absent cs "EUR" h]
  simp

/-- The first half of claim C4 exactly as stated: every row of a constructed
rate table maps the reference currency to exactly 1, for any published feed. -/
def claimC4_table : Prop :=
  ∀ (pub : List (Int × RateRow)) (dates_needed : List Int)
    (tbl : List (Int × RateRow)) (d : Int) (row : RateRow),
    fetch_ecb_rates pub dates_needed = .ok tbl → dget tbl d = some row →
    dget row "EUR" = some (qmk 1 1)

/-- The second half of claim C4 exactly as stated: the computed reference
amount equals the original amount for reference-currency transactions. -/
def claimC4_identity : Prop :=
  ∀ (ts : List GroupedTx) (rates : List (String × List (String × Rat)))
    (res : List TaxedTx) (x : TaxedTx),
    calculate_tob ts rates = .ok res → x ∈ res → x.currency = "EUR" →
    x.eur_amount = x.amount

def gE : GroupedTx := ⟨"D", "B", "S", "Buy", 1, "EUR", qmk 1 8, 1⟩

def xE : TaxedTx :=
  ⟨"D", "B", "S", "Buy", 1, "EUR", qmk 1 8, 1, qmk 1 1, qmk 13 100, qmk 0 1⟩

/-- Counterexample to C4 as stated: a published EUR cube with rate 2 overwrites
the injected 1.0 in the constructed table, and an EUR transaction of amount
1/8 gets reference amount 0.13, not 1/8. -/
theorem reference_currency_identity_cex :
    (¬ claimC4_table) ∧ (¬ claimC4_identity) := by
  constructor
  · intro h
    have := h [((0 : Int), [("EUR", qmk 2 1)])] [0]
      [((0 : Int), mkRow [("EUR", qmk 2 1)])] 0 (mkRow [("EUR", qmk 2 1)])
      (by decide) (by decide)
    exact absurd this (by decide)
  · intro h
    have := h [gE] [("D", [("EUR", qmk 1 1)])] [xE] xE (by decide) (by decide) rfl
    exact absurd this (by decide)

/-- C4 amended: the reference-currency entry of every constructed table row is
exactly 1 provided the published feed itself never lists an EUR cube (the
injection of lines 57/80 precedes the published entries, so a published EUR
cube would overwrite it); and a transaction taxed at rate 1 has reference
amount `round2(amount)`, hence exactly `amount` whenever the amount is a whole
number of cents (`qmk n 100` is `n/100`). -/
theorem reference_currency_identity_amended :
    (∀ (pub : List (Int × RateRow)) (dates_needed : List Int)
        (tbl : List (Int × RateRow)) (d : Int) (row : RateRow),
        (∀ e ∈ pub, ∀ p ∈ e.2, p.1 ≠ "EUR") →
        fetch_ecb_rates pub dates_needed = .ok tbl → dget tbl d = some row →
        dget row "EUR" = some (qmk 1 1)) ∧
    (∀ (ts : List GroupedTx) (rates : List (String × List (String × Rat)))
        (res : List TaxedTx) (x : TaxedTx),
        calculate_tob ts rates = .ok res → x ∈ res → x.rate = qmk 1 1 →
        x.eur_amount = round2 x.amount ∧
          ∀ n : Int, x.amount = qmk n 100 → x.eur_amount = x.amount) := by
  constructor
  · intro pub needed tbl d row hnoeur hok hrow
    have hmem : (d, row) ∈ tbl := dget_mem tbl d row hrow
    rcases fetchGo_mem pub needed (buildDirect pub needed) tbl hok (d, row) hmem
      with hdir | ⟨d2, r2, hfb, hx⟩
    · obtain ⟨e, he, hshape⟩ := buildDirect_mem pub needed (d, row) hdir
      have hrow2 : row = mkRow e.2 := congrArg Prod.snd hshape
      rw [hrow2]
      exact mkRow_eur (hnoeur e he)
    · have hrow2 : row = r2 := congrArg Prod.snd hx
      obtain ⟨cs, ⟨e, he, hcs⟩, hshape⟩ := fallback_shape hfb
      rw [hrow2, hshape]
      exact mkRow_eur (hcs ▸ hnoeur e he)
  · intro ts rates res x hok hx hrate
    rw [calc_ok_map hok] at hx
    obtain ⟨t, ht, rfl⟩ := List.mem_map.mp hx
    obtain ⟨r, hr⟩ := Option.isSome_iff_exists.mp (calc_ok_rates hok t ht)
    have hrowd : taxRowD rates t = mkTaxed t r := by simp [taxRowD, hr]
    rw [hrowd] at hrate ⊢
    have hr1 : r = qmk 1 1 := hrate
    subst hr1
    constructor
    · show round2 (qdiv t.amount (qmk 1 1)) = round2 t.amount
      rw [qdiv_one]
    · intro n hn
      have hn2 : t.amount = qmk n 100 := hn
      show round2 (qdiv t.amount (qmk 1 1)) = t.amount
      rw [qdiv_one, hn2]
      exact round2_qmk_cent n

def gC : GroupedTx := ⟨"D", "B", "S", "Buy", 1, "EUR", qmk 25 100, 1⟩

def xC : TaxedTx :=
  ⟨"D", "B", "S", "Buy", 1, "EUR", qmk 25 100, 1, qmk 1 1, qmk 25 100, qmk 0 1⟩

/-- Witness for the amended C4: an EUR-free feed gives an EUR entry of 1, and
an EUR transaction of 0.25 keeps its amount. -/
theorem reference_currency_identity_amended_witness :
    dget (mkRow [("USD", qmk 2 1)]) "EUR" = some (qmk 1 1) ∧
      (xC.eur_amount = round2 xC.amount ∧
        ∀ n : Int, xC.amount = qmk n 100 → xC.eur_amount = xC.amount) :=
  ⟨(reference_currency_identity_amended).1 [((0 : Int), [("USD", qmk 2 1)])] [0]
      [((0 : Int), mkRow [("USD", qmk 2 1)])] 0 (mkRow [("USD", qmk 2 1)])
      (by decide) (by decide) (by decide),
    (reference_currency_identity_amended).2 [gC] [("D", [("EUR", qmk 1 1)])]
      [xC] xC (by decide) (by decide) (by decide)⟩

/-! ## Character-list utilities for the extractors

The extractors are embedded over `List Char`.  `str.strip`, `str.split`,
substring search and the regular expressions of the source are modelled as
structural recursions so that concrete runs reduce in the kernel.  Unicode
classes are modelled by their ASCII parts, which is all the statement formats
use. -/

/-- `text.split('\n')` (line 131 / 230). -/
def splitLines : List Char → List (List Char)
  | [] => [[]]
  | c :: rest =>
    if c = '\n' then [] :: splitLines rest
    else
      match splitLines rest with
      | l :: ls => (c :: l) :: ls
      | [] => [[c]]

/-- `str.strip()`. -/
def trimChars (cs : List Char) : List Char :=
  ((cs.dropWhile Char.isWhitespace).reverse.dropWhile Char.isWhitespace).reverse

/-- Helper for `str.split()` with no argument: accumulate the current token. -/
def splitWsAux : List Char → List Char → List (List Char)
  | [], acc => if acc.isEmpty then [] else [acc.reverse]
  | c :: rest, acc =>
    if c.isWhitespace then
      if acc.isEmpty then splitWsAux rest [] else acc.reverse :: splitWsAux rest []
    else splitWsAux rest (c :: acc)

/-- `str.split()`: whitespace-run tokenization, no empty tokens (line 163). -/
def splitWs (cs : List Char) : List (List Char) := splitWsAux cs []

/-- Whether `pat` is an initial segment of `s`. -/
def leadMatch : List Char → List Char → Bool
  | [], _ => true
  | _ :: _, [] => false
  | p :: ps, c :: cs => decide (p = c) && leadMatch ps cs

/-- Python `pat in s` substring containment. -/
def containsSub (s pat : List Char) : Bool :=
  match s with
  | [] => pat.isEmpty
  | _ :: rest => leadMatch pat s || containsSub rest pat

/-- Python `s.find(pat)`: index of the first occurrence. -/
def findSub (s pat : List Char) : Option Nat :=
  match s with
  | [] => if pat.isEmpty then some 0 else none
  | _ :: rest =>
    if leadMatch pat s then some 0
    else (findSub rest pat).map (· + 1)

/-- `str.replace(',', '')`. -/
def stripCommas (cs : List Char) : List Char := cs.filter (fun c => !decide (c = ','))

/-- `str.replace('.', '')`. -/
def stripDots (cs : List Char) : List Char := cs.filter (fun c => !decide (c = '.'))

/-- Python regex `\w` (ASCII part). -/
def isWordChar (c : Char) : Bool := c.isAlphanum || decide (c = '_')

/-- Decimal value of a digit list. -/
def digitsVal (cs : List Char) : Nat :=
  cs.foldl (fun n c => 10 * n + (c.toNat - 48)) 0

/-- One or more decimal digits. -/
def parseDigits (cs : List Char) : Option Nat :=
  if cs.isEmpty then none
  else if cs.all Char.isDigit then some (digitsVal cs) else none

/-- Python `int(str)`: optional sign then digits (digit-group underscores and
surrounding whitespace are not modelled; the statement formats use neither). -/
def pyInt (cs : List Char) : Option Int :=
  match cs with
  | '-' :: rest => (parseDigits rest).map (fun n => -(n : Int))
  | '+' :: rest => (parseDigits rest).map (fun n => (n : Int))
  | _ => (parseDigits cs).map (fun n => (n : Int))

/-- Rational negation, kernel computable. -/
def qneg (a : Rat) : Rat := mkRat (-a.num) a.den

theorem qneg_eq (a : ℚ) : qneg a = -a := by
  rw [qneg, Rat.mkRat_eq_divInt, Rat.divInt_eq_div]
  conv_rhs => rw [← Rat.num_div_den a]
  push_cast
  ring

/-- The unsigned core of a Python `float` literal: digits with an optional
fractional part, at least one digit in total. -/
def pyFloatCore (l : List Char) : Option Rat :=
  let ip := l.takeWhile Char.isDigit
  let rest := l.drop ip.length
  match rest with
  | [] => if ip.isEmpty then none else some (qmk (digitsVal ip) 1)
  | '.' :: fr =>
    if fr.all Char.isDigit && (!ip.isEmpty || !fr.isEmpty) then
      some (qadd (qmk (digitsVal ip) 1) (qmk (digitsVal fr) (10 ^ fr.length)))
    else none
  | _ => none

/-- Python `float(str)` on the statement grammar: optional sign, digits,
optional fraction (exponents, `inf`/`nan` and underscores are not modelled;
the statement formats use none of them). -/
def pyFloat (cs : List Char) : Option Rat :=
  match cs with
  | '-' :: rest => (pyFloatCore rest).map qneg
  | '+' :: rest => pyFloatCore rest
  | _ => pyFloatCore cs

/-- Python `int(float)` truncation toward zero. -/
def pyTrunc (q : Rat) : Int := q.num.tdiv (q.den : Int)

/-! ## Format-A extractor (`extract_ib_transactions`, lines 124-221) -/

/-- The currency-section openers of line 140. -/
def currencyCodes : List (List Char) :=
  ["JPY", "USD", "GBP", "EUR", "CAD", "AUD", "SEK", "NOK", "CHF", "HKD",
    "SGD"].map String.toList

/-- The section-terminator markers of line 147. -/
def isExitLine (line : List Char) : Bool :=
  containsSub line ("Total in GBP".toList) || containsSub line ("Forex".toList) ||
    containsSub line ("Symbol Date/Time Quantity T. Price Proceeds".toList)

/-- The date pattern of line 154: `^\d{4}-\d{2}-\d{2},`. -/
def isDateLine (line : List Char) : Bool :=
  match line with
  | a :: b :: c :: d :: '-' :: e :: f :: '-' :: g :: h :: ',' :: _ =>
    a.isDigit && b.isDigit && c.isDigit && d.isDigit && e.isDigit && f.isDigit &&
      g.isDigit && h.isDigit
  | _ => false

/-- `line.split(',')[0]` of line 155. -/
def beforeComma (line : List Char) : List Char :=
  line.takeWhile (fun c => !decide (c = ','))

/-- `len(parts[3].split('.')[-1])`: length of the segment after the last dot. -/
def afterLastDotLen (cs : List Char) : Nat :=
  (cs.reverse.takeWhile (fun c => !decide (c = '.'))).length

/-- The column heuristic of lines 176-181: token 3 contains a dot and the
segment after its last dot has length exactly 4 (digits are not required). -/
def hasCPrice (tok : List Char) : Bool :=
  tok.contains '.' && decide (afterLastDotLen tok = 4)

/-- Python `sym.split('.')` (keeping empty segments). -/
def splitDots (cs : List Char) : List (List Char) :=
  match cs with
  | [] => [[]]
  | c :: rest =>
    if c = '.' then [] :: splitDots rest
    else
      match splitDots rest with
      | l :: ls => (c :: l) :: ls
      | [] => [[c]]

/-- The foreign-exchange symbol test of lines 200-203. -/
def isForexSymbol (sym : List Char) : Bool :=
  sym.contains '.' &&
    (decide ((splitDots sym).length = 2) &&
      (decide (((splitDots sym).headD []).length = 3) &&
        decide (((splitDots sym).getD 1 []).length = 3)))

/-- The `ValueError` of a failed `int`/`float` conversion (the `IndexError`
alternative of the handler at line 216 is unreachable behind the length
guards). -/
inductive PyErr : Type
  | valueError : PyErr
  | overflowError : PyErr
deriving DecidableEq, Inhabited

/-- The record parser for the line after a date line (lines 163-215), with
Python exception semantics: `.error` where `int()`/`float()` would raise,
`.ok none` for the explicitly skipped rows, `.ok (some tx)` for an appended
transaction. -/
def parseIBDataE (currency date nextLine : List Char) : Except PyErr (Option RawTx) :=
  let parts := splitWs nextLine
  if parts.length ≥ 5 then
    let symbol := parts.headD []
    match pyInt (stripCommas (parts.getD 1 [])) with
    | none => .error .valueError
    | some quantity =>
      let proceedsStr :=
        stripCommas (if hasCPrice (parts.getD 3 []) then parts.getD 4 [] else parts.getD 3 [])
      match pyFloat proceedsStr with
      | none => .error .valueError
      | some proceeds =>
        if leadMatch ("Total".toList) symbol then .ok none
        else if isForexSymbol symbol then .ok none
        else
          .ok (some
            { date := ⟨date⟩, broker := "Interactive Brokers", stock := ⟨symbol⟩,
              type := if quantity < 0 then "Sell" else "Buy",
              shares := (quantity.natAbs : Int), currency := ⟨currency⟩,
              amount := qabs proceeds })
  else .ok none

/-- The record parser as the code behaves, with the `except` of line 216
catching the conversion errors (`continue`, i.e. no transaction). -/
def parseIBData (currency date nextLine : List Char) : Option RawTx :=
  match parseIBDataE currency date nextLine with
  | .ok o => o
  | .error _ => none

/-- The line loop of lines 135-219.  Every iteration advances by exactly one
line (each `continue` follows an `i += 1`); the record is parsed from the
following line without consuming it.  The state is the active currency
section. -/
def ibGo : Option (List Char) → List (List Char) → List RawTx
  | _, [] => []
  | cur, l :: rest =>
    let line := trimChars l
    if currencyCodes.contains line then ibGo (some line) rest
    else
      let cur2 := if isExitLine line then none else cur
      match cur2 with
      | some c =>
        if isDateLine line then
          match rest with
          | [] => []
          | nl :: _ =>
            match parseIBData c (beforeComma line) (trimChars nl) with
            | some tx => tx :: ibGo cur2 rest
            | none => ibGo cur2 rest
        else ibGo cur2 rest
      | none => ibGo cur2 rest

/-- `extract_ib_transactions` (lines 124-221). -/
def extract_ib_transactions (text : String) : List RawTx :=
  ibGo none (splitLines text.toList)

/-! ## Format-B extractor (`extract_saxo_transactions`, lines 223-323) -/

/-- The fixed Dutch month table of lines 245-246. -/
def monthTable : List (List Char × Nat) :=
  [("jan".toList, 1), ("feb".toList, 2), ("mrt".toList, 3), ("apr".toList, 4),
   ("mei".toList, 5), ("jun".toList, 6), ("jul".toList, 7), ("aug".toList, 8),
   ("sep".toList, 9), ("okt".toList, 10), ("nov".toList, 11), ("dec".toList, 12)]

def lowerChars (cs : List Char) : List Char := cs.map Char.toLower

/-- Python `f"{n:02d}"` for the month/day fields of line 248. -/
def pad2 (n : Nat) : List Char :=
  if n < 10 then '0' :: Nat.toDigits 10 n else Nat.toDigits 10 n

/-- The month-and-year tail of the date regex of line 241:
`(jan|...|dec)-\d{4}`, case-insensitive, after the day and its dash. -/
def matchMonthYear (day : Nat) (cs : List Char) : Option (List Char) :=
  match cs with
  | m1 :: m2 :: m3 :: '-' :: y1 :: y2 :: y3 :: y4 :: _ =>
    match (monthTable.find? (fun e => decide (e.1 = lowerChars [m1, m2, m3]))).map
        (fun e => e.2) with
    | some mo =>
      if y1.isDigit && y2.isDigit && y3.isDigit && y4.isDigit then
        some ([y1, y2, y3, y4] ++ '-' :: pad2 mo ++ '-' :: pad2 day)
      else none
    | none => none
  | _ => none

/-- The anchored date regex `^(\d{1,2})-(jan|...|dec)-(\d{4})` of line 241,
returning the ISO date string of line 248.  `\d{1,2}` is greedy: two leading
digits must be followed by the dash directly. -/
def matchSaxoDate (cs : List Char) : Option (List Char) :=
  match cs with
  | a :: b :: rest2 =>
    if a.isDigit then
      if b.isDigit then
        match rest2 with
        | '-' :: rest3 => matchMonthYear (10 * (a.toNat - 48) + (b.toNat - 48)) rest3
        | _ => none
      else if b = '-' then matchMonthYear (a.toNat - 48) rest2
      else none
    else none
  | _ => none

/-- The recognized currency codes of line 258. -/
def saxoCurrencyCodes : List (List Char) :=
  ["EUR", "USD", "GBP", "CAD", "AUD", "JPY", "CHF", "SEK", "NOK"].map String.toList

/-- The `\b...\b` word boundaries of the currency search. -/
def boundaryOk (prev : Option Char) (after : List Char) : Bool :=
  (match prev with
   | none => true
   | some p => !isWordChar p) &&
  (match after with
   | [] => true
   | c :: _ => !isWordChar c)

/-- Left-to-right scan for the first currency code with word boundaries
(line 258); the alternation order never matters because no two codes can
match at the same position. -/
def findCurrencyTokAux : Option Char → List Char → Nat → Option (Nat × List Char)
  | _, [], _ => none
  | prev, c :: rest, i =>
    match saxoCurrencyCodes.find? (fun code =>
        leadMatch code (c :: rest) && boundaryOk prev ((c :: rest).drop code.length)) with
    | some code => some (i, code)
    | none => findCurrencyTokAux (some c) rest (i + 1)

def findCurrencyTok (cs : List Char) : Option (Nat × List Char) :=
  findCurrencyTokAux none cs 0

/-- The anchored number `-?\d+(?:\.\d+)?`, greedy, returning the matched
text (the share-count group of lines 271-274). -/
def parseNumTok (cs : List Char) : Option (List Char) :=
  match cs with
  | '-' :: rest => (parseNumTokCore rest).map (fun m => '-' :: m)
  | _ => parseNumTokCore cs
where
  parseNumTokCore (l : List Char) : Option (List Char) :=
    let ds := l.takeWhile Char.isDigit
    if ds.isEmpty then none
    else
      match l.drop ds.length with
      | '.' :: rest2 =>
        let fs := rest2.takeWhile Char.isDigit
        if fs.isEmpty then some ds else some (ds ++ '.' :: fs)
      | _ => some ds

/-- The tail of the primary share regex after `(Koop|Verkoop)`:
`\s+\w+\s+` then the number; each run is maximal because the classes are
disjoint, so backtracking cannot shift them. -/
def matchShares1At (cs : List Char) : Option (List Char) :=
  let w1 := cs.takeWhile Char.isWhitespace
  if w1.isEmpty then none
  else
    let cs1 := cs.drop w1.length
    let w2 := cs1.takeWhile isWordChar
    if w2.isEmpty then none
    else
      let cs2 := cs1.drop w2.length
      let w3 := cs2.takeWhile Char.isWhitespace
      if w3.isEmpty then none
      else parseNumTok (cs2.drop w3.length)

/-- Left-to-right scan of the primary share regex
`(Koop|Verkoop)\s+\w+\s+(-?\d+(?:\.\d+)?)` (line 271). -/
def findShares1 : List Char → Option (List Char)
  | [] => none
  | c :: rest =>
    if leadMatch ("Koop".toList) (c :: rest) then
      match matchShares1At ((c :: rest).drop 4) with
      | some m => some m
      | none => findShares1 rest
    else if leadMatch ("Verkoop".toList) (c :: rest) then
      match matchShares1At ((c :: rest).drop 7) with
      | some m => some m
      | none => findShares1 rest
    else findShares1 rest

/-- `\s+[\d,]+` anchored: the context required after the number group of the
fallback share regex (line 274). -/
def tailOkNum (cs : List Char) : Bool :=
  let w := cs.takeWhile Char.isWhitespace
  if w.isEmpty then false
  else
    match cs.drop w.length with
    | c :: _ => c.isDigit || decide (c = ',')
    | [] => false

/-- Backtracking over the fraction length of `-?\d+(?:\.\d+)?` (greedy:
longest fraction first, then the fraction-free reading). -/
def tryFrac (sgn ds fs afterF : List Char) : Nat → Option (List Char)
  | 0 => none
  | n + 1 =>
    if tailOkNum (fs.drop (n + 1) ++ afterF) then
      some (sgn ++ ds ++ '.' :: fs.take (n + 1))
    else tryFrac sgn ds fs afterF n

/-- The number-with-context match of the fallback share regex, anchored:
`(-?\d+(?:\.\d+)?)` followed by `\s+[\d,]+`.  The integer-digit run cannot
backtrack (a shortened run is followed by a digit, which fails `\s`), so only
the fraction length backtracks. -/
def matchNum2At (cs : List Char) : Option (List Char) :=
  match cs with
  | '-' :: rest => matchNum2Core ['-'] rest
  | _ => matchNum2Core [] cs
where
  matchNum2Core (sgn : List Char) (l : List Char) : Option (List Char) :=
    let ds := l.takeWhile Char.isDigit
    if ds.isEmpty then none
    else
      let rest := l.drop ds.length
      match rest with
      | '.' :: rest2 =>
        let fs := rest2.takeWhile Char.isDigit
        if fs.isEmpty then
          if tailOkNum rest then some (sgn ++ ds) else none
        else
          match tryFrac sgn ds fs (rest2.drop fs.length) fs.length with
          | some m => some m
          | none => if tailOkNum rest then some (sgn ++ ds) else none
      | _ => if tailOkNum rest then some (sgn ++ ds) else none

/-- The lazy `.*?` expansion: try the number at every position, nearest
first. -/
def lazyNumScan : List Char → Option (List Char)
  | [] => none
  | c :: rest =>
    match matchNum2At (c :: rest) with
    | some m => some m
    | none => lazyNumScan rest

/-- Left-to-right scan of the fallback share regex
`(Koop|Verkoop).*?(-?\d+(?:\.\d+)?)\s+[\d,]+` (line 274). -/
def findShares2 : List Char → Option (List Char)
  | [] => none
  | c :: rest =>
    if leadMatch ("Koop".toList) (c :: rest) then
      match lazyNumScan ((c :: rest).drop 4) with
      | some m => some m
      | none => findShares2 rest
    else if leadMatch ("Verkoop".toList) (c :: rest) then
      match lazyNumScan ((c :: rest).drop 7) with
      | some m => some m
      | none => findShares2 rest
    else findShares2 rest

/-- Lines 271-277: the primary pattern, then the fallback pattern. -/
def findShares (line : List Char) : Option (List Char) :=
  match findShares1 line with
  | some m => some m
  | none => findShares2 line

/-- The anchored amount pattern `-?[\d.]+,\d{2}` of line 284; the dot-digit
run is maximal (a shortened run is still followed by a dot or digit, never
the required comma), so no backtracking arises.  Returns the match and the
rest of the line for `findall` resumption. -/
def matchAmtAt (cs : List Char) : Option (List Char × List Char) :=
  match cs with
  | '-' :: rest => matchAmtCore ['-'] rest
  | _ => matchAmtCore [] cs
where
  matchAmtCore (sgn : List Char) (l : List Char) : Option (List Char × List Char) :=
    let run := l.takeWhile (fun c => c.isDigit || decide (c = '.'))
    if run.isEmpty then none
    else
      match l.drop run.length with
      | ',' :: d1 :: d2 :: rest =>
        if d1.isDigit && d2.isDigit then
          some (sgn ++ run ++ [',', d1, d2], rest)
        else none
      | _ => none

/-- `re.findall` over the line: scan left to right, resuming after each
match.  The fuel equals the line length; every match consumes at least one
character, so the fuel never runs out. -/
def findAmountsAux : Nat → List Char → List (List Char)
  | 0, _ => []
  | _, [] => []
  | fuel + 1, c :: rest =>
    match matchAmtAt (c :: rest) with
    | some (m, rest2) => m :: findAmountsAux fuel rest2
    | none => findAmountsAux fuel rest

def findAmounts (cs : List Char) : List (List Char) := findAmountsAux cs.length cs

/-- Line 293: `amt_str.replace('.', '').replace(',', '.').replace('-', '')`. -/
def amtTransform (m : List Char) : List Char :=
  ((stripDots m).map (fun c => if c = ',' then '.' else c)).filter
    (fun c => !decide (c = '-'))

/-- The float conversion of one collected amount candidate (lines 293-295). -/
def amtVal (m : List Char) : Option Rat := pyFloat (amtTransform m)

/-- One iteration of the selection loop of lines 291-304: skip unconvertible
and small candidates, keep the strictly largest seen so far. -/
def selStep (st : Option Rat × Rat) (m : List Char) : Option Rat × Rat :=
  match amtVal m with
  | none => st
  | some v =>
    if v < qmk 2 1 then st
    else if st.2 < v then (some v, v)
    else st

/-- The selection loop of lines 289-307: keep the largest candidate at least
2.0 (the small ones are unit exchange rates), `none` when no candidate
survives (including the final `boekingsbedrag == 0` guard of line 306). -/
def selectAmount (cands : List (List Char)) : Option Rat :=
  match (cands.foldl selStep (none, qmk 0 1)).1 with
  | none => none
  | some b => if b = qmk 0 1 then none else some b

/-- One line of the Format-B extractor (lines 232-321) with Python exception
semantics: `.error` where the `int(float(...))` share conversion of line 279
would raise outside the inner amount `try`, `.ok none` for every skipped
line. -/
def processSaxoLineE (rawLine : List Char) : Except PyErr (Option RawTx) :=
  let line := trimChars rawLine
  if containsSub line ("Cashbedrag".toList) ||
      containsSub line ("Storting/opname".toList) then
    .ok none
  else
    match matchSaxoDate line with
    | none => .ok none
    | some isoDate =>
      if containsSub line ("Aandelen".toList) &&
          (containsSub line ("Koop".toList) || containsSub line ("Verkoop".toList)) then
        match findSub line ("Aandelen".toList) with
        | none => .ok none
        | some idx =>
          let afterA := trimChars (line.drop (idx + 8))
          match findCurrencyTok afterA with
          | none => .ok none
          | some p =>
            let instrument := trimChars (afterA.take p.1)
            let transType := if containsSub line ("Koop".toList) then "Buy" else "Sell"
            match findShares line with
            | none => .ok none
            | some sharesStr =>
              match pyFloat (stripDots (stripCommas sharesStr)) with
              | none => .error .valueError
              | some sv =>
                match selectAmount (findAmounts line) with
                | none => .ok none
                | some amt =>
                  .ok (some
                    { date := ⟨isoDate⟩, broker := "Saxo Bank",
                      stock := ⟨instrument⟩, type := transType,
                      shares := ((pyTrunc sv).natAbs : Int),
                      currency := ⟨p.2⟩, amount := amt })
      else .ok none

/-- The per-line behaviour as the code runs it, with the handler of line 319
turning an exception into a skip. -/
def processSaxoLine (rawLine : List Char) : Option RawTx :=
  match processSaxoLineE rawLine with
  | .ok o => o
  | .error _ => none

/-- `extract_saxo_transactions` (lines 223-323). -/
def extract_saxo_transactions (text : String) : List RawTx :=
  (splitLines text.toList).filterMap processSaxoLine

/-! ## Selection-loop characterization -/

theorem selFold_char :
    ∀ (cands : List (List Char)) (st : Option Rat × Rat),
      (st = (none, qmk 0 1) ∨ ∃ b0, st = (some b0, b0) ∧ qmk 2 1 ≤ b0) →
      ((cands.foldl selStep st = st ∨
          ∃ b, cands.foldl selStep st = (some b, b) ∧ qmk 2 1 ≤ b ∧
            ∃ c ∈ cands, amtVal c = some b) ∧
        (∀ c ∈ cands, ∀ v, amtVal c = some v → ¬ v < qmk 2 1 →
          v ≤ (cands.foldl selStep st).2) ∧
        st.2 ≤ (cands.foldl selStep st).2) := by
  intro cands
  induction cands with
  | nil =>
    intro st _
    exact ⟨Or.inl rfl, fun c hc => absurd hc (List.not_mem_nil c), le_refl _⟩
  | cons m rest ih =>
    intro st hst
    have hstep : selStep st m = st ∨
        (∃ v, amtVal m = some v ∧ ¬ v < qmk 2 1 ∧ st.2 < v ∧
          selStep st m = (some v, v)) := by
      unfold selStep
      cases hm : amtVal m with
      | none => exact Or.inl rfl
      | some v =>
        by_cases hv : v < qmk 2 1
        · simp [hv]
        · by_cases hlt : st.2 < v
          · exact Or.inr ⟨v, rfl, hv, hlt, by simp [hv, hlt]⟩
          · simp [hv, hlt]
    have hst2 : selStep st m = (none, qmk 0 1) ∨
        ∃ b0, selStep st m = (some b0, b0) ∧ qmk 2 1 ≤ b0 := by
      rcases hstep with he | ⟨v, _, hv, _, he⟩
      · rw [he]; exact hst
      · rw [he]; exact Or.inr ⟨v, rfl, not_lt.mp hv⟩
    have hmono : st.2 ≤ (selStep st m).2 := by
      rcases hstep with he | ⟨v, _, _, hlt, he⟩
      · rw [he]
      · rw [he]; exact le_of_lt hlt
    obtain ⟨ha, hb, hc⟩ := ih (selStep st m) hst2
    rw [List.foldl_cons]
    refine ⟨?_, ?_, le_trans hmono hc⟩
    · rcases ha with ha | ⟨b, hfold, hble, c, hcmem, hcval⟩
      · rcases hstep with he | ⟨v, hmv, hv, _, he⟩
        · rw [ha, he]
          exact Or.inl rfl
        · rw [ha, he]
          exact Or.inr ⟨v, rfl, not_lt.mp hv, m, List.mem_cons_self m rest, hmv⟩
      · exact Or.inr ⟨b, hfold, hble, c, List.mem_cons_of_mem m hcmem, hcval⟩
    · intro c hcmem v hv hvl
      rcases List.mem_cons.mp hcmem with rfl | hcr
      · have hstep2 : v ≤ (selStep st c).2 := by
          unfold selStep
          rw [hv]
          by_cases hlt : st.2 < v
          · simp [hvl, hlt]
          · simp only [if_neg hvl, if_neg hlt]
            exact not_lt.mp hlt
        exact le_trans hstep2 hc
      · exact hb c hcr v hv hvl

theorem selectAmount_some {cands : List (List Char)} {b : Rat}
    (h : selectAmount cands = some b) :
    qmk 2 1 ≤ b ∧ (∃ c ∈ cands, amtVal c = some b) ∧
      ∀ c ∈ cands, ∀ v, amtVal c = some v → ¬ v < qmk 2 1 → v ≤ b := by
  obtain ⟨ha, hb, _⟩ := selFold_char cands (none, qmk 0 1) (Or.inl rfl)
  unfold selectAmount at h
  rcases ha with he | ⟨b0, hfold, hble, c, hcmem, hcval⟩
  · rw [he] at h
    exact Option.noConfusion h
  · rw [hfold] at h hb
    simp only at h hb
    have hb0 : b0 ≠ qmk 0 1 := by
      intro he0
      rw [he0] at hble
      have : ¬ (qmk 2 1 ≤ qmk 0 1) := by decide
      exact this hble
    rw [if_neg hb0] at h
    have hbb : b0 = b := Option.some.inj h
    subst hbb
    exact ⟨hble, ⟨c, hcmem, hcval⟩, hb⟩

theorem selectAmount_none {cands : List (List Char)}
    (h : ∀ c ∈ cands, ∀ v, amtVal c = some v → v < qmk 2 1) :
    selectAmount cands = none := by
  obtain ⟨ha, _, _⟩ := selFold_char cands (none, qmk 0 1) (Or.inl rfl)
  unfold selectAmount
  rcases ha with he | ⟨b, hfold, hble, c, hcmem, hcval⟩
  · rw [he]
  · exact absurd (h c hcmem b hcval) (not_lt.mpr hble)

theorem processSaxoLineE_ok_some {l : List Char} {tx : RawTx}
    (h : processSaxoLineE l = .ok (some tx)) :
    (∃ n : Nat, tx.shares = (n : Int)) ∧
      selectAmount (findAmounts (trimChars l)) = some tx.amount ∧
      tx.broker = "Saxo Bank" := by
  unfold processSaxoLineE at h
  simp only [] at h
  split at h
  · simp at h
  · split at h
    · simp at h
    · split at h
      · split at h
        · simp at h
        · split at h
          · simp at h
          · split at h
            · simp at h
            · split at h
              · simp at h
              · split at h
                · simp at h
                · simp only [Except.ok.injEq, Option.some.injEq] at h
                  cases h
                  refine ⟨⟨_, rfl⟩, ?_, rfl⟩
                  assumption
      · simp at h

theorem processSaxoLine_some {l : List Char} {tx : RawTx}
    (h : processSaxoLine l = some tx) :
    (∃ n : Nat, tx.shares = (n : Int)) ∧
      selectAmount (findAmounts (trimChars l)) = some tx.amount ∧
      tx.broker = "Saxo Bank" := by
  unfold processSaxoLine at h
  cases hE : processSaxoLineE l with
  | ok o =>
    rw [hE] at h
    simp only [] at h
    cases o with
    | none => exact Option.noConfusion h
    | some tx2 =>
      have : tx2 = tx := Option.some.inj h
      subst this
      exact processSaxoLineE_ok_some hE
  | error e =>
    rw [hE] at h
    simp at h

theorem parseIBDataE_ok_some {c d nl : List Char} {tx : RawTx}
    (h : parseIBDataE c d nl = .ok (some tx)) :
    (splitWs nl).length ≥ 5 ∧
      ∃ q p, pyInt (stripCommas ((splitWs nl).getD 1 [])) = some q ∧
        pyFloat (stripCommas (if hasCPrice ((splitWs nl).getD 3 [])
          then (splitWs nl).getD 4 [] else (splitWs nl).getD 3 [])) = some p ∧
        tx.shares = (q.natAbs : Int) ∧ tx.amount = qabs p ∧
        tx.broker = "Interactive Brokers" := by
  unfold parseIBDataE at h
  simp only [] at h
  split at h
  case isTrue h5 =>
    split at h
    · simp at h
    · split at h
      · simp at h
      · split at h
        · simp at h
        · split at h
          · simp at h
          · simp only [Except.ok.injEq, Option.some.injEq] at h
            cases h
            refine ⟨h5, _, _, ?_, ?_, rfl, rfl, rfl⟩ <;> assumption
  case isFalse => simp at h

theorem parseIBData_some {c d nl : List Char} {tx : RawTx}
    (h : parseIBData c d nl = some tx) :
    (splitWs nl).length ≥ 5 ∧
      ∃ q p, pyInt (stripCommas ((splitWs nl).getD 1 [])) = some q ∧
        pyFloat (stripCommas (if hasCPrice ((splitWs nl).getD 3 [])
          then (splitWs nl).getD 4 [] else (splitWs nl).getD 3 [])) = some p ∧
        tx.shares = (q.natAbs : Int) ∧ tx.amount = qabs p ∧
        tx.broker = "Interactive Brokers" := by
  unfold parseIBData at h
  cases hE : parseIBDataE c d nl with
  | ok o =>
    rw [hE] at h
    simp only [] at h
    cases o with
    | none => exact Option.noConfusion h
    | some tx2 =>
      have : tx2 = tx := Option.some.inj h
      subst this
      exact parseIBDataE_ok_some hE
  | error e =>
    rw [hE] at h
    simp at h

theorem ibGo_mem :
    ∀ (lines : List (List Char)) (cur : Option (List Char)) (tx : RawTx),
      tx ∈ ibGo cur lines →
      ∃ c d nl, parseIBData c d nl = some tx := by
  intro lines
  induction lines with
  | nil =>
    intro cur tx h
    simp [ibGo] at h
  | cons l rest ih =>
    intro cur tx h
    simp only [ibGo] at h
    split at h
    · exact ih _ tx h
    · split at h
      · split at h
        · split at h
          · simp at h
          · split at h
            · rcases List.mem_cons.mp h with rfl | hm
              · exact ⟨_, _, _, by assumption⟩
              · exact ih _ tx hm
            · exact ih _ tx h
        · exact ih _ tx h
      · exact ih _ tx h

/-- The specification's reading of the Format-A price-column test: the token
contains a dot followed by exactly four decimal DIGITS (i.e. ends in
".dddd" with digits d). -/
def specFourDecimals (tok : List Char) : Bool :=
  match tok.reverse with
  | d1 :: d2 :: d3 :: d4 :: '.' :: _ =>
    d1.isDigit && d2.isDigit && d3.isDigit && d4.isDigit
  | _ => false

/-- Claim C7 exactly as stated: a Format-A data row's amount token is chosen
by testing the fourth token for a dot followed by four decimal digits. -/
def claimC7 : Prop :=
  ∀ (c d nl : List Char) (tx : RawTx), parseIBData c d nl = some tx →
    ∃ p, pyFloat (stripCommas (if specFourDecimals ((splitWs nl).getD 3 [])
        then (splitWs nl).getD 4 [] else (splitWs nl).getD 3 [])) = some p ∧
      tx.amount = qabs p

/-- Counterexample to C7: the code tests only the LENGTH of the text after
the last dot, not digit-hood, so token "2.abcd" is treated as a price and
the amount is read from the fifth token, while the spec's digit test would
pick the unparseable fourth token. -/
theorem ib_price_heuristic_cex : ¬ claimC7 := by
  intro h
  obtain ⟨p, hp, -⟩ := h ("USD".toList) ("2025-01-10".toList)
    ("SYM 10 1.5 2.abcd 999".toList)
    ⟨"2025-01-10", "Interactive Brokers", "SYM", "Buy", 10, "USD", qmk 999 1⟩
    (by decide)
  have hnone : pyFloat (stripCommas (if specFourDecimals
      ((splitWs ("SYM 10 1.5 2.abcd 999".toList)).getD 3 [])
      then (splitWs ("SYM 10 1.5 2.abcd 999".toList)).getD 4 []
      else (splitWs ("SYM 10 1.5 2.abcd 999".toList)).getD 3 [])) = none := by decide
  rw [hnone] at hp
  exact Option.noConfusion hp

/-- C7 amended: the row needs at least five whitespace tokens; the code's
actual test on the fourth token is `hasCPrice` — it contains a dot and the
text after the LAST dot has length exactly 4, digits not required — and the
amount is the absolute value of the float conversion of the chosen token
(fifth if the test holds, else fourth) with commas removed.  Conversely,
any ≥5-token row whose quantity and chosen token convert and whose symbol
is neither a `Total` prefix nor a forex pair produces the transaction. -/
theorem ib_price_heuristic_amended :
    (∀ (c d nl : List Char) (tx : RawTx), parseIBData c d nl = some tx →
        (splitWs nl).length ≥ 5 ∧
          ∃ p, pyFloat (stripCommas (if hasCPrice ((splitWs nl).getD 3 [])
              then (splitWs nl).getD 4 [] else (splitWs nl).getD 3 [])) = some p ∧
            tx.amount = qabs p) ∧
    (∀ (c d nl : List Char) (q : Int) (p : Rat),
        (splitWs nl).length ≥ 5 →
        pyInt (stripCommas ((splitWs nl).getD 1 [])) = some q →
        pyFloat (stripCommas (if hasCPrice ((splitWs nl).getD 3 [])
          then (splitWs nl).getD 4 [] else (splitWs nl).getD 3 [])) = some p →
        leadMatch ("Total".toList) ((splitWs nl).headD []) = false →
        isForexSymbol ((splitWs nl).headD []) = false →
        parseIBData c d nl = some
          { date := ⟨d⟩, broker := "Interactive Brokers",
            stock := ⟨(splitWs nl).headD []⟩,
            type := if q < 0 then "Sell" else "Buy",
            shares := (q.natAbs : Int), currency := ⟨c⟩, amount := qabs p }) := by
  constructor
  · intro c d nl tx h
    obtain ⟨h5, q, p, -, hp, -, ham, -⟩ := parseIBData_some h
    exact ⟨h5, p, hp, ham⟩
  · intro c d nl q p h5 hq hp hT hF
    unfold parseIBData parseIBDataE
    simp only [h5, if_true, hq, hp, hT, hF, Bool.false_eq_true, if_false]

def nlW : List Char := "3836.T -5,000 1,736.0000 1,730.0000 8,680,000 -4,577.06".toList

def txIBW2 : RawTx :=
  ⟨"2025-01-10", "Interactive Brokers", "3836.T", "Sell", 5000, "USD", qmk 8680000 1⟩

/-- Witness for the amended C7 on a realistic Format-A row whose fourth token
1,730.0000 is a comma-grouped price in C format: the amount is taken from
the fifth token. -/
theorem ib_price_heuristic_amended_witness :
    (splitWs nlW).length ≥ 5 ∧
      ∃ p, pyFloat (stripCommas (if hasCPrice ((splitWs nlW).getD 3 [])
          then (splitWs nlW).getD 4 [] else (splitWs nlW).getD 3 [])) = some p ∧
        txIBW2.amount = qabs p :=
  ib_price_heuristic_amended.1 ("USD".toList) ("2025-01-10".toList) nlW txIBW2 (by decide)

/-! ## Totality of the extractors (support for the safety claim) -/

/-- The conversion survival predicate of line 279: the share token still
float-parses after its commas and dots are removed. -/
def sharesTokOk (m : List Char) : Bool := (pyFloat (stripDots (stripCommas m))).isSome

theorem takeWhile_digits_all (l : List Char) :
    (l.takeWhile Char.isDigit).all Char.isDigit = true := by
  rw [List.all_eq_true]
  intro x hx
  exact List.mem_takeWhile_imp hx

theorem all_take {p : Char → Bool} {l : List Char} (h : l.all p = true) (n : Nat) :
    (l.take n).all p = true := by
  rw [List.all_eq_true] at h ⊢
  exact fun x hx => h x (List.take_subset n l hx)

theorem filter_digits_id (p : Char → Bool) (h : ∀ c : Char, c.isDigit → p c = true) :
    ∀ ds : List Char, ds.all Char.isDigit = true → ds.filter p = ds := by
  intro ds hds
  induction ds with
  | nil => rfl
  | cons c rest ih =>
    rw [List.all_cons, Bool.and_eq_true] at hds
    rw [List.filter_cons, if_pos (h c hds.1), ih hds.2]

theorem pyFloatCore_digits (ds : List Char) (h1 : ds ≠ []) (h2 : ds.all Char.isDigit = true) :
    (pyFloatCore ds).isSome = true := by
  have ht : ds.takeWhile Char.isDigit = ds := by
    induction ds with
    | nil => rfl
    | cons c rest ih =>
      rw [List.all_cons, Bool.and_eq_true] at h2
      rw [List.takeWhile_cons, if_pos h2.1]
      by_cases hr : rest = []
      · subst hr; rfl
      · rw [ih hr h2.2]
  unfold pyFloatCore
  simp only [ht, List.drop_length]
  rw [if_neg (by simpa using h1)]
  rfl

theorem pyFloat_cons_digit (c : Char) (l : List Char) (hc : c.isDigit = true) :
    pyFloat (c :: l) = pyFloatCore (c :: l) := by
  have h1 : c ≠ '-' := by intro h; subst h; exact absurd hc (by decide)
  have h2 : c ≠ '+' := by intro h; subst h; exact absurd hc (by decide)
  unfold pyFloat
  split
  · next rest heq => injection heq with ha hb; exact absurd ha h1
  · next rest heq => injection heq with ha hb; exact absurd ha h2
  · rfl

theorem digit_ne_comma : ∀ c : Char, c.isDigit → (!decide (c = ',')) = true := by
  intro c hc
  simp only [Bool.not_eq_true', decide_eq_false_iff_not]
  intro h
  rw [h] at hc
  exact absurd hc (by decide)

theorem digit_ne_dot : ∀ c : Char, c.isDigit → (!decide (c = '.')) = true := by
  intro c hc
  simp only [Bool.not_eq_true', decide_eq_false_iff_not]
  intro h
  rw [h] at hc
  exact absurd hc (by decide)

theorem pyFloat_shape (sgn ds fs tail : List Char)
    (hsgn : sgn = [] ∨ sgn = ['-'])
    (h1 : ds ≠ []) (h2 : ds.all Char.isDigit = true) (h3 : fs.all Char.isDigit = true)
    (htail : tail = [] ∨ tail = '.' :: fs) :
    sharesTokOk (sgn ++ ds ++ tail) = true := by
  have hcds : List.filter (fun c => !decide (c = ',')) ds = ds :=
    filter_digits_id _ digit_ne_comma ds h2
  have hdds : List.filter (fun c => !decide (c = '.')) ds = ds :=
    filter_digits_id _ digit_ne_dot ds h2
  have hcfs : List.filter (fun c => !decide (c = ',')) fs = fs :=
    filter_digits_id _ digit_ne_comma fs h3
  have hdfs : List.filter (fun c => !decide (c = '.')) fs = fs :=
    filter_digits_id _ digit_ne_dot fs h3
  set fsOut : List Char := if tail = [] then ([] : List Char) else fs with hfsOut
  have hct : List.filter (fun c => !decide (c = ',')) tail = tail := by
    rcases htail with ht | ht <;> subst ht
    · rfl
    · rw [List.filter_cons, if_pos (by decide), hcfs]
  have hdt : List.filter (fun c => !decide (c = '.')) tail = fsOut := by
    rcases htail with ht | ht <;> subst ht
    · rfl
    · rw [List.filter_cons, if_neg (by decide), hdfs, hfsOut, if_neg (by simp)]
  have hcs : List.filter (fun c => !decide (c = ',')) sgn = sgn := by
    rcases hsgn with h | h <;> subst h <;> rfl
  have hdsg : List.filter (fun c => !decide (c = '.')) sgn = sgn := by
    rcases hsgn with h | h <;> subst h <;> rfl
  have hbig : stripDots (stripCommas (sgn ++ ds ++ tail)) = sgn ++ (ds ++ fsOut) := by
    unfold stripCommas stripDots
    rw [List.filter_append, List.filter_append, List.filter_append, hcs, hcds, hct,
      List.filter_append, hdsg, hdds, hdt, List.append_assoc]
  have hall : (ds ++ fsOut).all Char.isDigit = true := by
    rw [List.all_append, h2, Bool.true_and, hfsOut]
    split
    · rfl
    · exact h3
  have hne : ds ++ fsOut ≠ [] := by
    intro hcon
    exact h1 (List.append_eq_nil.mp hcon).1
  unfold sharesTokOk
  rw [hbig]
  rcases hsgn with h | h <;> subst h
  · simp only [List.nil_append]
    obtain ⟨c, l, hcl⟩ : ∃ c l, ds ++ fsOut = c :: l := by
      cases hdf : ds ++ fsOut with
      | nil => exact absurd hdf hne
      | cons c l => exact ⟨c, l, rfl⟩
    rw [hcl]
    have hcd : c.isDigit = true := by
      rw [List.all_eq_true] at hall
      exact hall c (by rw [hcl]; exact List.mem_cons_self c l)
    rw [pyFloat_cons_digit c l hcd, ← hcl]
    exact pyFloatCore_digits _ hne hall
  · show ((pyFloatCore (ds ++ fsOut)).map qneg).isSome = true
    rw [Option.isSome_map']
    exact pyFloatCore_digits _ hne hall

theorem parseNumTokCore_shape {l m : List Char}
    (h : parseNumTok.parseNumTokCore l = some m) :
    ∃ ds fs tail, ds ≠ [] ∧ ds.all Char.isDigit = true ∧ fs.all Char.isDigit = true ∧
      (tail = [] ∨ tail = '.' :: fs) ∧ m = ds ++ tail := by
  unfold parseNumTok.parseNumTokCore at h
  simp only [] at h
  have hall := takeWhile_digits_all l
  split at h
  · exact absurd h (by simp)
  · next hne =>
    have hne2 : l.takeWhile Char.isDigit ≠ [] := by simpa using hne
    split at h
    · next rest2 heq =>
      split at h
      · injection h with h
        exact ⟨l.takeWhile Char.isDigit, [], [], hne2, hall, by simp, Or.inl rfl,
          by rw [← h, List.append_nil]⟩
      · injection h with h
        exact ⟨l.takeWhile Char.isDigit, rest2.takeWhile Char.isDigit,
          '.' :: rest2.takeWhile Char.isDigit, hne2, hall,
          takeWhile_digits_all rest2, Or.inr rfl, h.symm⟩
    · injection h with h
      exact ⟨l.takeWhile Char.isDigit, [], [], hne2, hall, by simp, Or.inl rfl,
        by rw [← h, List.append_nil]⟩

theorem parseNumTok_ok {cs m : List Char}
    (h : parseNumTok cs = some m) : sharesTokOk m = true := by
  unfold parseNumTok at h
  split at h
  · next rest =>
    cases hc : parseNumTok.parseNumTokCore rest with
    | none => rw [hc] at h; exact absurd h (by simp)
    | some m0 =>
      rw [hc] at h
      injection h with h
      obtain ⟨ds, fs, tail, hne, hds, hfs, htail, hm0⟩ := parseNumTokCore_shape hc
      have := pyFloat_shape ['-'] ds fs tail (Or.inr rfl) hne hds hfs htail
      rw [← h, hm0]
      simpa using this
  · obtain ⟨ds, fs, tail, hne, hds, hfs, htail, hm0⟩ := parseNumTokCore_shape h
    have := pyFloat_shape [] ds fs tail (Or.inl rfl) hne hds hfs htail
    rw [hm0]
    simpa using this

theorem matchShares1At_ok {cs m : List Char}
    (h : matchShares1At cs = some m) : sharesTokOk m = true := by
  unfold matchShares1At at h
  simp only [] at h
  split at h
  · exact absurd h (by simp)
  · split at h
    · exact absurd h (by simp)
    · split at h
      · exact absurd h (by simp)
      · exact parseNumTok_ok h

theorem findShares1_ok : ∀ {l m : List Char}, findShares1 l = some m → sharesTokOk m = true := by
  intro l
  induction l with
  | nil => intro m h; exact absurd h (by simp [findShares1])
  | cons c rest ih =>
    intro m h
    unfold findShares1 at h
    split at h
    · split at h
      · next m0 heq =>
        injection h with h
        rw [← h]
        exact matchShares1At_ok heq
      · exact ih h
    · split at h
      · split at h
        · next m0 heq =>
          injection h with h
          rw [← h]
          exact matchShares1At_ok heq
        · exact ih h
      · exact ih h

theorem tryFrac_ok {sgn ds fs afterF m : List Char}
    (hsgn : sgn = [] ∨ sgn = ['-']) (hne : ds ≠ [])
    (hds : ds.all Char.isDigit = true) (hfs : fs.all Char.isDigit = true) :
    ∀ {n : Nat}, tryFrac sgn ds fs afterF n = some m → sharesTokOk m = true := by
  intro n
  induction n with
  | zero => intro h; exact absurd h (by simp [tryFrac])
  | succ k ih =>
    intro h
    unfold tryFrac at h
    split at h
    · injection h with h
      rw [← h]
      exact pyFloat_shape sgn ds (fs.take (k + 1)) ('.' :: fs.take (k + 1)) hsgn hne hds
        (all_take hfs (k + 1)) (Or.inr rfl)
    · exact ih h

theorem matchNum2Core_ok {sgn l m : List Char} (hsgn : sgn = [] ∨ sgn = ['-'])
    (h : matchNum2At.matchNum2Core sgn l = some m) : sharesTokOk m = true := by
  unfold matchNum2At.matchNum2Core at h
  simp only [] at h
  have hall := takeWhile_digits_all l
  split at h
  · exact absurd h (by simp)
  · next hne =>
    have hne2 : l.takeWhile Char.isDigit ≠ [] := by simpa using hne
    have hbare : sharesTokOk (sgn ++ l.takeWhile Char.isDigit) = true := by
      have := pyFloat_shape sgn (l.takeWhile Char.isDigit) [] [] hsgn hne2 hall
        (by simp) (Or.inl rfl)
      simpa using this
    split at h
    · next rest2 heq =>
      split at h
      · split at h
        · injection h with h
          rw [← h]
          exact hbare
        · exact absurd h (by simp)
      · split at h
        · next m0 heq2 =>
          injection h with h
          rw [← h]
          exact tryFrac_ok hsgn hne2 hall (takeWhile_digits_all rest2) heq2
        · split at h
          · injection h with h
            rw [← h]
            exact hbare
          · exact absurd h (by simp)
    · split at h
      · injection h with h
        rw [← h]
        exact hbare
      · exact absurd h (by simp)

theorem matchNum2At_ok {cs m : List Char}
    (h : matchNum2At cs = some m) : sharesTokOk m = true := by
  unfold matchNum2At at h
  split at h
  · exact matchNum2Core_ok (Or.inr rfl) h
  · exact matchNum2Core_ok (Or.inl rfl) h

theorem lazyNumScan_ok : ∀ {l m : List Char}, lazyNumScan l = some m → sharesTokOk m = true := by
  intro l
  induction l with
  | nil => intro m h; exact absurd h (by simp [lazyNumScan])
  | cons c rest ih =>
    intro m h
    unfold lazyNumScan at h
    split at h
    · next m0 heq =>
      injection h with h
      rw [← h]
      exact matchNum2At_ok heq
    · exact ih h

theorem findShares2_ok : ∀ {l m : List Char}, findShares2 l = some m → sharesTokOk m = true := by
  intro l
  induction l with
  | nil => intro m h; exact absurd h (by simp [findShares2])
  | cons c rest ih =>
    intro m h
    unfold findShares2 at h
    split at h
    · split at h
      · next m0 heq =>
        injection h with h
        rw [← h]
        exact lazyNumScan_ok heq
      · exact ih h
    · split at h
      · split at h
        · next m0 heq =>
          injection h with h
          rw [← h]
          exact lazyNumScan_ok heq
        · exact ih h
      · exact ih h

theorem findShares_ok {line m : List Char}
    (h : findShares line = some m) : sharesTokOk m = true := by
  unfold findShares at h
  split at h
  · next m0 heq =>
    injection h with h
    rw [← h]
    exact findShares1_ok heq
  · exact findShares2_ok h

/-! ## Faithful CPython float semantics: special values and overflow

The exact-rational reading of `float` used above is enough for the price
arithmetic, but CPython `float(str)` also accepts the words `nan` and
`inf`/`infinity`, converts a finite decimal that exceeds the double range
to an infinity, and `int(float)` raises `ValueError` on nan and
`OverflowError` on the infinities — and `OverflowError` is NOT in the
`except (ValueError, IndexError, AttributeError)` tuple of line 319, so it
aborts the whole Format-B extraction.  The layer below models these paths;
finite values stay exact rationals. -/

/-- A CPython float as the statement grammar can produce it: a finite value
(kept exact), an infinity, or a nan. -/
inductive PyFloat : Type
  | fin : Rat → PyFloat
  | pinf : PyFloat
  | ninf : PyFloat
  | nan : PyFloat
deriving DecidableEq, Inhabited

/-- The smallest magnitude at which decimal-to-double conversion overflows:
halfway between the largest double `2^1024 - 2^971` and `2^1024`
(round-to-nearest-even sends the tie up, so `float(str)` returns an
infinity from `2^1024 - 2^970` on). -/
def dblOvfl : Rat := qmk (((2 ^ 1024 - 2 ^ 970 : Nat) : Int)) 1

/-- The unsigned part of CPython `float(str)`: the special words, then the
digit grammar with overflow to infinity. -/
def pyFloatPos (l : List Char) : Option PyFloat :=
  if lowerChars l = "nan".toList then some .nan
  else if lowerChars l = "inf".toList || lowerChars l = "infinity".toList then some .pinf
  else
    match pyFloatCore l with
    | none => none
    | some q => some (if q < dblOvfl then .fin q else .pinf)

/-- Float negation. -/
def pyNegF : PyFloat → PyFloat
  | .fin q => .fin (qneg q)
  | .pinf => .ninf
  | .ninf => .pinf
  | .nan => .nan

/-- CPython `float(str)` on the statement grammar, with the `nan`/`inf`
words and overflow to infinity (exponents and underscores are still not
modelled; the statement formats use neither). -/
def pyFloatF (cs : List Char) : Option PyFloat :=
  match cs with
  | '-' :: rest => (pyFloatPos rest).map pyNegF
  | '+' :: rest => pyFloatPos rest
  | _ => pyFloatPos cs

/-- Python `abs` on floats: `abs(nan)` is nan, `abs(±inf)` is inf. -/
def pyAbsF : PyFloat → PyFloat
  | .fin q => .fin (qabs q)
  | .pinf => .pinf
  | .ninf => .pinf
  | .nan => .nan

/-- Python `int(float)`: `ValueError` on nan, `OverflowError` on the
infinities, truncation toward zero otherwise. -/
def pyIntF : PyFloat → Except PyErr Int
  | .fin q => .ok (q.num.tdiv (q.den : Int))
  | .pinf => .error .overflowError
  | .ninf => .error .overflowError
  | .nan => .error .valueError

/-- Python `<` on floats: every comparison against nan is false. -/
def pfLt : PyFloat → PyFloat → Bool
  | .nan, _ => false
  | _, .nan => false
  | .fin a, .fin b => decide (a < b)
  | .fin _, .pinf => true
  | .fin _, .ninf => false
  | .pinf, _ => false
  | .ninf, .ninf => false
  | .ninf, _ => true

/-- A raw transaction as the extractors build it, with the float amount able
to be nan or an infinity (`amount = abs(proceeds)` at line 214,
`boekingsbedrag` at line 316). -/
structure RawTxF where
  date : String
  broker : String
  stock : String
  type : String
  shares : Int
  currency : String
  amount : PyFloat
deriving DecidableEq, Inhabited

/-- The record parser of lines 163-215 over faithful floats.  `float()` now
SUCCEEDS on `nan`/`inf` proceeds tokens (the transaction is appended with a
nan or infinite amount); `.error .valueError` only where `int()` or
`float()` genuinely raise.  The handler of line 216 is
`except (ValueError, IndexError)`. -/
def parseIBDataF (currency date nextLine : List Char) : Except PyErr (Option RawTxF) :=
  let parts := splitWs nextLine
  if parts.length ≥ 5 then
    let symbol := parts.headD []
    match pyInt (stripCommas (parts.getD 1 [])) with
    | none => .error .valueError
    | some quantity =>
      let proceedsStr :=
        stripCommas (if hasCPrice (parts.getD 3 []) then parts.getD 4 [] else parts.getD 3 [])
      match pyFloatF proceedsStr with
      | none => .error .valueError
      | some proceeds =>
        if leadMatch ("Total".toList) symbol then .ok none
        else if isForexSymbol symbol then .ok none
        else
          .ok (some
            { date := ⟨date⟩, broker := "Interactive Brokers", stock := ⟨symbol⟩,
              type := if quantity < 0 then "Sell" else "Buy",
              shares := (quantity.natAbs : Int), currency := ⟨currency⟩,
              amount := pyAbsF proceeds })
  else .ok none

/-- The `except (ValueError, IndexError): pass` of line 216: every error the
record parser can raise is in the caught tuple, so a failing row is a
skip. -/
def parseIBDataC (currency date nextLine : List Char) : Option RawTxF :=
  match parseIBDataF currency date nextLine with
  | .ok o => o
  | .error _ => none

/-- The Format-A line loop over faithful floats (lines 135-219). -/
def ibGoF : Option (List Char) → List (List Char) → List RawTxF
  | _, [] => []
  | cur, l :: rest =>
    let line := trimChars l
    if currencyCodes.contains line then ibGoF (some line) rest
    else
      let cur2 := if isExitLine line then none else cur
      match cur2 with
      | some c =>
        if isDateLine line then
          match rest with
          | [] => []
          | nl :: _ =>
            match parseIBDataC c (beforeComma line) (trimChars nl) with
            | some tx => tx :: ibGoF cur2 rest
            | none => ibGoF cur2 rest
        else ibGoF cur2 rest
      | none => ibGoF cur2 rest

/-- `extract_ib_transactions` (lines 124-221) over faithful floats. -/
def extract_ib_transactionsF (text : String) : List RawTxF :=
  ibGoF none (splitLines text.toList)

/-- The float conversion of one collected amount candidate (lines 293-295)
over faithful floats: a long enough digit candidate converts to infinity. -/
def amtValF (m : List Char) : Option PyFloat := pyFloatF (amtTransform m)

/-- One iteration of the selection loop of lines 291-304 over faithful
floats: an unconvertible candidate is skipped by the inner handler of line
303, `amount_val < 2.0` and `amount_val > max_amount` are Python float
comparisons (false on nan, so a nan candidate is never selected). -/
def selStepF (st : Option PyFloat × PyFloat) (m : List Char) : Option PyFloat × PyFloat :=
  match amtValF m with
  | none => st
  | some v =>
    if pfLt v (.fin (qmk 2 1)) then st
    else if pfLt st.2 v then (some v, v)
    else st

/-- The selection loop of lines 289-307 over faithful floats, with the final
`boekingsbedrag == 0` guard of line 306. -/
def selectAmountF (cands : List (List Char)) : Option PyFloat :=
  match (cands.foldl selStepF (none, .fin (qmk 0 1))).1 with
  | none => none
  | some b => if b = .fin (qmk 0 1) then none else some b

/-- One line of the Format-B extractor (lines 232-321) with the genuine
exception channel of the `try` block of lines 251-317: the share conversion
`abs(int(float(...)))` of line 279 raises `ValueError` when `float()`
rejects the token or the float is nan, and `OverflowError` when the float
is infinite. -/
def processSaxoLineF (rawLine : List Char) : Except PyErr (Option RawTxF) :=
  let line := trimChars rawLine
  if containsSub line ("Cashbedrag".toList) ||
      containsSub line ("Storting/opname".toList) then
    .ok none
  else
    match matchSaxoDate line with
    | none => .ok none
    | some isoDate =>
      if containsSub line ("Aandelen".toList) &&
          (containsSub line ("Koop".toList) || containsSub line ("Verkoop".toList)) then
        match findSub line ("Aandelen".toList) with
        | none => .ok none
        | some idx =>
          let afterA := trimChars (line.drop (idx + 8))
          match findCurrencyTok afterA with
          | none => .ok none
          | some p =>
            let instrument := trimChars (afterA.take p.1)
            let transType := if containsSub line ("Koop".toList) then "Buy" else "Sell"
            match findShares line with
            | none => .ok none
            | some sharesStr =>
              match pyFloatF (stripDots (stripCommas sharesStr)) with
              | none => .error .valueError
              | some sv =>
                match pyIntF sv with
                | .error e => .error e
                | .ok n =>
                  match selectAmountF (findAmounts line) with
                  | none => .ok none
                  | some amt =>
                    .ok (some
                      { date := ⟨isoDate⟩, broker := "Saxo Bank",
                        stock := ⟨instrument⟩, type := transType,
                        shares := (n.natAbs : Int),
                        currency := ⟨p.2⟩, amount := amt })
      else .ok none

/-- The handler of line 319 catches `ValueError`, `IndexError` and
`AttributeError` (`continue`), but NOT `OverflowError`, which keeps
propagating. -/
def catchSaxo : Except PyErr (Option RawTxF) → Except PyErr (Option RawTxF)
  | .error .valueError => .ok none
  | x => x

/-- One Format-B line as the loop body runs it: the `try` block with the
line-319 handler around it. -/
def processSaxoLineC (rawLine : List Char) : Except PyErr (Option RawTxF) :=
  catchSaxo (processSaxoLineF rawLine)

/-- The Format-B line loop (lines 232-321): an uncaught exception aborts the
whole extraction, a skipped line contributes nothing. -/
def saxoGoF : List (List Char) → Except PyErr (List RawTxF)
  | [] => .ok []
  | l :: rest =>
    match processSaxoLineC l with
    | .error e => .error e
    | .ok none => saxoGoF rest
    | .ok (some tx) =>
      match saxoGoF rest with
      | .error e => .error e
      | .ok ts => .ok (tx :: ts)

/-- `extract_saxo_transactions` (lines 223-323) over faithful floats: the
result is a list, or the uncaught exception the run aborts with. -/
def extract_saxo_transactionsF (text : String) : Except PyErr (List RawTxF) :=
  saxoGoF (splitLines text.toList)

/-! ## Properties of the Python float order -/

theorem pfLt_irrefl (x : PyFloat) : pfLt x x = false := by
  cases x <;> simp [pfLt]

theorem pfLt_to_nan (x : PyFloat) : pfLt x .nan = false := by
  cases x <;> rfl

theorem pfLt_to_ninf (x : PyFloat) : pfLt x .ninf = false := by
  cases x <;> rfl

/-- Raising the left side of a false `<` keeps it false, as long as the
middle value is not nan. -/
theorem pfLt_trans_neg {b v c : PyFloat} (hb : b ≠ .nan)
    (h1 : pfLt b v = false) (h2 : pfLt c b = false) : pfLt c v = false := by
  cases b <;> cases v <;> cases c <;>
    simp_all [pfLt] <;> linarith

/-- A value strictly above the current maximum dominates everything the
maximum dominated. -/
theorem pfLt_shift {a b c : PyFloat} (h1 : pfLt a b = true)
    (h2 : pfLt a c = false) : pfLt b c = false := by
  cases a <;> cases b <;> cases c <;>
    simp_all [pfLt] <;> linarith

theorem pfLt_asymm {a b : PyFloat} (h : pfLt a b = true) : pfLt b a = false := by
  cases a <;> cases b <;>
    simp_all [pfLt] <;> linarith

/-- A candidate that passes the threshold test and beats the running maximum
is an infinity or a finite value at least 2. -/
theorem selected_shape {s v : PyFloat} (hq : pfLt v (.fin (qmk 2 1)) = false)
    (hsel : pfLt s v = true) :
    v = .pinf ∨ ∃ q, v = .fin q ∧ qmk 2 1 ≤ q := by
  cases v with
  | fin q =>
    refine Or.inr ⟨q, rfl, ?_⟩
    simp only [pfLt, decide_eq_false_iff_not] at hq
    exact not_lt.mp hq
  | pinf => exact Or.inl rfl
  | ninf => rw [pfLt_to_ninf] at hsel; exact Bool.noConfusion hsel
  | nan => rw [pfLt_to_nan] at hsel; exact Bool.noConfusion hsel

theorem selFoldF_char :
    ∀ (cands : List (List Char)) (st : Option PyFloat × PyFloat),
      (st = (none, .fin (qmk 0 1)) ∨
        ∃ b0, st = (some b0, b0) ∧ (b0 = .pinf ∨ ∃ q, b0 = .fin q ∧ qmk 2 1 ≤ q)) →
      ((cands.foldl selStepF st = st ∨
          ∃ b, cands.foldl selStepF st = (some b, b) ∧
            (b = .pinf ∨ ∃ q, b = .fin q ∧ qmk 2 1 ≤ q) ∧
            ∃ c ∈ cands, amtValF c = some b) ∧
        (∀ c ∈ cands, ∀ v, amtValF c = some v → pfLt v (.fin (qmk 2 1)) = false →
          pfLt (cands.foldl selStepF st).2 v = false) ∧
        pfLt (cands.foldl selStepF st).2 st.2 = false) := by
  intro cands
  induction cands with
  | nil =>
    intro st _
    exact ⟨Or.inl rfl, fun c hc => absurd hc (List.not_mem_nil c), pfLt_irrefl _⟩
  | cons m rest ih =>
    intro st hst
    have hstnan : st.2 ≠ .nan := by
      rcases hst with he | ⟨b0, he, hb0⟩
      · rw [he]; exact fun h => PyFloat.noConfusion h
      · rw [he]
        rcases hb0 with h | ⟨q, h, _⟩ <;> rw [h] <;> exact fun h => PyFloat.noConfusion h
    have hstep : selStepF st m = st ∨
        (∃ v, amtValF m = some v ∧ pfLt v (.fin (qmk 2 1)) = false ∧
          pfLt st.2 v = true ∧ selStepF st m = (some v, v)) := by
      unfold selStepF
      cases hm : amtValF m with
      | none => exact Or.inl rfl
      | some v =>
        cases hv : pfLt v (.fin (qmk 2 1)) with
        | true => simp [hv]
        | false =>
          cases hlt : pfLt st.2 v with
          | true => exact Or.inr ⟨v, rfl, hv, hlt, by simp [hv, hlt]⟩
          | false => simp [hv, hlt]
    have hst2 : selStepF st m = (none, .fin (qmk 0 1)) ∨
        ∃ b0, selStepF st m = (some b0, b0) ∧
          (b0 = .pinf ∨ ∃ q, b0 = .fin q ∧ qmk 2 1 ≤ q) := by
      rcases hstep with he | ⟨v, _, hv, hsel, he⟩
      · rw [he]; exact hst
      · rw [he]; exact Or.inr ⟨v, rfl, selected_shape hv hsel⟩
    have hmidnan : (selStepF st m).2 ≠ .nan := by
      rcases hst2 with he | ⟨b0, he, hb0⟩
      · rw [he]; exact fun h => PyFloat.noConfusion h
      · rw [he]
        rcases hb0 with h | ⟨q, h, _⟩ <;> rw [h] <;> exact fun h => PyFloat.noConfusion h
    have hmono : pfLt (selStepF st m).2 st.2 = false := by
      rcases hstep with he | ⟨v, _, _, hsel, he⟩
      · rw [he]; exact pfLt_irrefl _
      · rw [he]; exact pfLt_asymm hsel
    obtain ⟨ha, hb, hc⟩ := ih (selStepF st m) hst2
    rw [List.foldl_cons]
    refine ⟨?_, ?_, pfLt_trans_neg hmidnan hmono hc⟩
    · rcases ha with ha | ⟨b, hfold, hshape, c, hcmem, hcval⟩
      · rcases hstep with he | ⟨v, hmv, hv, hsel, he⟩
        · rw [ha, he]
          exact Or.inl rfl
        · rw [ha, he]
          exact Or.inr ⟨v, rfl, selected_shape hv hsel, m, List.mem_cons_self m rest, hmv⟩
      · exact Or.inr ⟨b, hfold, hshape, c, List.mem_cons_of_mem m hcmem, hcval⟩
    · intro c hcmem v hv hvl
      rcases List.mem_cons.mp hcmem with rfl | hcr
      · have hstep2 : pfLt (selStepF st c).2 v = false := by
          unfold selStepF
          rw [hv]
          simp only [hvl, Bool.false_eq_true, if_false]
          cases hlt : pfLt st.2 v with
          | true => simp [pfLt_irrefl]
          | false => simpa using hlt
        exact pfLt_trans_neg hmidnan hstep2 hc
      · exact hb c hcr v hv hvl

theorem selectAmountF_some {cands : List (List Char)} {b : PyFloat}
    (h : selectAmountF cands = some b) :
    (b = .pinf ∨ ∃ q, b = .fin q ∧ qmk 2 1 ≤ q) ∧
      (∃ c ∈ cands, amtValF c = some b) ∧
      ∀ c ∈ cands, ∀ v, amtValF c = some v → pfLt v (.fin (qmk 2 1)) = false →
        pfLt b v = false := by
  obtain ⟨ha, hb, _⟩ := selFoldF_char cands (none, .fin (qmk 0 1)) (Or.inl rfl)
  unfold selectAmountF at h
  rcases ha with he | ⟨b0, hfold, hshape, c, hcmem, hcval⟩
  · rw [he] at h
    exact Option.noConfusion h
  · rw [hfold] at h hb
    simp only at h hb
    have hb0 : b0 ≠ .fin (qmk 0 1) := by
      rcases hshape with hs | ⟨q, hs, hq⟩
      · rw [hs]; exact fun hcon => PyFloat.noConfusion hcon
      · rw [hs]
        intro hcon
        injection hcon with hcon
        rw [hcon] at hq
        exact absurd hq (by decide)
    rw [if_neg hb0] at h
    have hbb : b0 = b := Option.some.inj h
    subst hbb
    exact ⟨hshape, ⟨c, hcmem, hcval⟩, hb⟩

theorem selectAmountF_none {cands : List (List Char)}
    (h : ∀ c ∈ cands, ∀ v, amtValF c = some v → pfLt v (.fin (qmk 2 1)) = true) :
    selectAmountF cands = none := by
  obtain ⟨ha, _, _⟩ := selFoldF_char cands (none, .fin (qmk 0 1)) (Or.inl rfl)
  unfold selectAmountF
  rcases ha with he | ⟨b, hfold, hshape, c, hcmem, hcval⟩
  · rw [he]
  · exfalso
    have hsmall := h c hcmem b hcval
    rcases hshape with hs | ⟨q, hs, hq⟩
    · rw [hs] at hsmall
      exact Bool.noConfusion hsmall
    · rw [hs] at hsmall
      simp only [pfLt, decide_eq_true_eq] at hsmall
      exact absurd hq (not_le.mpr hsmall)

/-! ## Shape of the faithful extractor outputs -/

theorem processSaxoLineF_ok_some {l : List Char} {tx : RawTxF}
    (h : processSaxoLineF l = .ok (some tx)) :
    (∃ n : Nat, tx.shares = (n : Int)) ∧
      selectAmountF (findAmounts (trimChars l)) = some tx.amount ∧
      tx.broker = "Saxo Bank" := by
  unfold processSaxoLineF at h
  simp only [] at h
  split at h
  · simp at h
  · split at h
    · simp at h
    · split at h
      · split at h
        · simp at h
        · split at h
          · simp at h
          · split at h
            · simp at h
            · split at h
              · simp at h
              · split at h
                · simp at h
                · split at h
                  · simp at h
                  · simp only [Except.ok.injEq, Option.some.injEq] at h
                    cases h
                    refine ⟨⟨_, rfl⟩, ?_, rfl⟩
                    assumption
      · simp at h

theorem processSaxoLineC_ok_some {l : List Char} {tx : RawTxF}
    (h : processSaxoLineC l = .ok (some tx)) :
    (∃ n : Nat, tx.shares = (n : Int)) ∧
      selectAmountF (findAmounts (trimChars l)) = some tx.amount ∧
      tx.broker = "Saxo Bank" := by
  unfold processSaxoLineC catchSaxo at h
  split at h
  · exact Option.noConfusion (Except.ok.inj h)
  · next hne =>
    have hF : processSaxoLineF l = .ok (some tx) := by
      cases hE : processSaxoLineF l with
      | ok o => rw [hE] at h; exact h
      | error e =>
        cases e with
        | valueError => exact absurd hE (by intro hcon; exact hne hcon)
        | overflowError => rw [hE] at h; exact Except.noConfusion h
    exact processSaxoLineF_ok_some hF

theorem processSaxoLineF_error_shape {l : List Char} {e : PyErr}
    (h : processSaxoLineF l = .error e) :
    e = .valueError ∨
      (e = .overflowError ∧ ∃ m sv, findShares (trimChars l) = some m ∧
        pyFloatF (stripDots (stripCommas m)) = some sv ∧
        pyIntF sv = .error .overflowError) := by
  unfold processSaxoLineF at h
  simp only [] at h
  split at h
  · simp at h
  · split at h
    · simp at h
    · split at h
      · split at h
        · simp at h
        · split at h
          · simp at h
          · split at h
            · simp at h
            · next m heqm =>
              split at h
              · simp only [Except.error.injEq] at h
                exact Or.inl h.symm
              · next sv heqsv =>
                split at h
                · next e2 heqint =>
                  simp only [Except.error.injEq] at h
                  cases e2 with
                  | valueError => exact Or.inl h.symm
                  | overflowError =>
                    exact Or.inr ⟨h.symm, m, sv, heqm, heqsv, heqint⟩
                · split at h
                  · simp at h
                  · simp at h
      · simp at h

theorem processSaxoLineC_error {l : List Char} {e : PyErr}
    (h : processSaxoLineC l = .error e) :
    e = .overflowError ∧ ∃ m sv, findShares (trimChars l) = some m ∧
      pyFloatF (stripDots (stripCommas m)) = some sv ∧
      pyIntF sv = .error .overflowError := by
  unfold processSaxoLineC catchSaxo at h
  split at h
  · exact Except.noConfusion h
  · next hne =>
    cases hE : processSaxoLineF l with
    | ok o => rw [hE] at h; exact Except.noConfusion h
    | error e2 =>
      cases e2 with
      | valueError => exact absurd hE (by intro hcon; exact hne hcon)
      | overflowError =>
        rw [hE] at h
        have he : e = PyErr.overflowError := (Except.error.inj h).symm
        rcases processSaxoLineF_error_shape hE with hv | ⟨_, hrest⟩
        · exact PyErr.noConfusion hv
        · exact ⟨he, hrest⟩

theorem parseIBDataF_ok_some {c d nl : List Char} {tx : RawTxF}
    (h : parseIBDataF c d nl = .ok (some tx)) :
    (splitWs nl).length ≥ 5 ∧
      ∃ q p, pyInt (stripCommas ((splitWs nl).getD 1 [])) = some q ∧
        pyFloatF (stripCommas (if hasCPrice ((splitWs nl).getD 3 [])
          then (splitWs nl).getD 4 [] else (splitWs nl).getD 3 [])) = some p ∧
        tx.shares = (q.natAbs : Int) ∧ tx.amount = pyAbsF p ∧
        tx.broker = "Interactive Brokers" := by
  unfold parseIBDataF at h
  simp only [] at h
  split at h
  · next h5 =>
    split at h
    · simp at h
    · split at h
      · simp at h
      · split at h
        · simp at h
        · split at h
          · simp at h
          · simp only [Except.ok.injEq, Option.some.injEq] at h
            cases h
            refine ⟨h5, _, _, ?_, ?_, rfl, rfl, rfl⟩ <;> assumption
  · simp at h

theorem parseIBDataC_some {c d nl : List Char} {tx : RawTxF}
    (h : parseIBDataC c d nl = some tx) :
    (splitWs nl).length ≥ 5 ∧
      ∃ q p, pyInt (stripCommas ((splitWs nl).getD 1 [])) = some q ∧
        pyFloatF (stripCommas (if hasCPrice ((splitWs nl).getD 3 [])
          then (splitWs nl).getD 4 [] else (splitWs nl).getD 3 [])) = some p ∧
        tx.shares = (q.natAbs : Int) ∧ tx.amount = pyAbsF p ∧
        tx.broker = "Interactive Brokers" := by
  unfold parseIBDataC at h
  cases hE : parseIBDataF c d nl with
  | ok o =>
    rw [hE] at h
    simp only [] at h
    cases o with
    | none => exact Option.noConfusion h
    | some tx2 =>
      have : tx2 = tx := Option.some.inj h
      subst this
      exact parseIBDataF_ok_some hE
  | error e =>
    rw [hE] at h
    simp at h

theorem parseIBDataF_error {c d nl : List Char} {e : PyErr}
    (h : parseIBDataF c d nl = .error e) : e = .valueError := by
  unfold parseIBDataF at h
  simp only [] at h
  split at h
  · split at h
    · exact (Except.error.inj h).symm
    · split at h
      · exact (Except.error.inj h).symm
      · split at h
        · simp at h
        · split at h
          · simp at h
          · simp at h
  · simp at h

theorem ibGoF_mem :
    ∀ (lines : List (List Char)) (cur : Option (List Char)) (tx : RawTxF),
      tx ∈ ibGoF cur lines →
      ∃ c d nl, parseIBDataC c d nl = some tx := by
  intro lines
  induction lines with
  | nil =>
    intro cur tx h
    simp [ibGoF] at h
  | cons l rest ih =>
    intro cur tx h
    simp only [ibGoF] at h
    split at h
    · exact ih _ tx h
    · split at h
      · split at h
        · split at h
          · simp at h
          · split at h
            · rcases List.mem_cons.mp h with rfl | hm
              · exact ⟨_, _, _, by assumption⟩
              · exact ih _ tx hm
            · exact ih _ tx h
        · exact ih _ tx h
      · exact ih _ tx h

theorem saxoGoF_mem :
    ∀ (lines : List (List Char)) (l : List RawTxF) (tx : RawTxF),
      saxoGoF lines = .ok l → tx ∈ l →
      ∃ line, processSaxoLineC line = .ok (some tx) := by
  intro lines
  induction lines with
  | nil =>
    intro l tx h hm
    unfold saxoGoF at h
    rw [← Except.ok.inj h] at hm
    exact absurd hm (List.not_mem_nil tx)
  | cons l0 rest ih =>
    intro l tx h hm
    unfold saxoGoF at h
    split at h
    · exact Except.noConfusion h
    · exact ih l tx h hm
    · next tx0 heq0 =>
      split at h
      · exact Except.noConfusion h
      · next ts hts =>
        have : tx0 :: ts = l := Except.ok.inj h
        rw [← this] at hm
        rcases List.mem_cons.mp hm with rfl | hm2
        · exact ⟨l0, heq0⟩
        · exact ih ts tx hts hm2

theorem pyAbsF_ne_ninf (p : PyFloat) : pyAbsF p ≠ .ninf := by
  cases p <;> exact fun h => PyFloat.noConfusion h

theorem pyAbsF_fin_nonneg {p : PyFloat} {q : Rat} (h : pyAbsF p = .fin q) : 0 ≤ q := by
  cases p with
  | fin r =>
    have : qabs r = q := PyFloat.fin.inj h
    rw [← this, qabs_eq]
    exact abs_nonneg r
  | pinf => exact PyFloat.noConfusion h
  | ninf => exact PyFloat.noConfusion h
  | nan => exact PyFloat.noConfusion h

/-- Claim C5 exactly as stated: every transaction either extractor emits has
strictly positive shares and amount (`amount > 0` read as the Python float
comparison). -/
def claimC5 : Prop :=
  ∀ (text : String) (tx : RawTxF),
    (tx ∈ extract_ib_transactionsF text ∨
      ∃ l, extract_saxo_transactionsF text = .ok l ∧ tx ∈ l) →
    0 < tx.shares ∧ pfLt (.fin (qmk 0 1)) tx.amount = true

/-- Counterexample to C5: a Format-A data row with quantity 0 and proceeds 0
is extracted with `shares = 0` and `amount = 0.0` — no positivity filter
exists in the code. -/
theorem extractor_positivity_cex : ¬ claimC5 := by
  intro h
  have h1 := h "USD\n2025-01-10,x\nSYM 0 1.5 0 9"
    ⟨"2025-01-10", "Interactive Brokers", "SYM", "Buy", 0, "USD", .fin (qmk 0 1)⟩
    (Or.inl (by decide))
  exact absurd h1.1 (by decide)

/-- C5 amended: shares are nonnegative in both extractors (they are
`abs(int(...))`), a Format-A amount is `abs(float(...))` — nonnegative when
finite, possibly infinite, and nan when the proceeds token is `nan` (then
`amount > 0` is false without the amount being negative) — and a Format-B
amount on a non-aborting run is a finite value of at least 2 or infinity,
hence positive; strict positivity fails only on Format-A rows with zero
quantity or proceeds, or a nan proceeds token. -/
theorem extractor_positivity_amended (text : String) :
    (∀ tx ∈ extract_ib_transactionsF text,
        0 ≤ tx.shares ∧ tx.amount ≠ .ninf ∧ ∀ q, tx.amount = .fin q → 0 ≤ q) ∧
    (∀ l, extract_saxo_transactionsF text = .ok l → ∀ tx ∈ l,
        0 ≤ tx.shares ∧
          (tx.amount = .pinf ∨ ∃ q, tx.amount = .fin q ∧ qmk 2 1 ≤ q)) := by
  constructor
  · intro tx htx
    obtain ⟨c, d, nl, hp⟩ := ibGoF_mem _ none tx htx
    obtain ⟨-, q, p, -, -, hsh, ham, -⟩ := parseIBDataC_some hp
    refine ⟨?_, ?_, ?_⟩
    · rw [hsh]
      exact Int.natCast_nonneg _
    · rw [ham]
      exact pyAbsF_ne_ninf p
    · intro q2 hq2
      rw [ham] at hq2
      exact pyAbsF_fin_nonneg hq2
  · intro l hl tx htx
    obtain ⟨line, hline⟩ := saxoGoF_mem _ l tx hl htx
    obtain ⟨⟨n, hsh⟩, hsel, -⟩ := processSaxoLineC_ok_some hline
    constructor
    · rw [hsh]
      exact Int.natCast_nonneg n
    · exact (selectAmountF_some hsel).1

def txIBW : RawTxF :=
  ⟨"2025-01-10", "Interactive Brokers", "SYM", "Buy", 10, "USD", .fin (qmk 300 1)⟩

def txSXW : RawTxF :=
  ⟨"2025-12-31", "Saxo Bank", "Foo", "Buy", 5, "EUR", .fin (qmk 4567 100)⟩

/-- Witness for the amended C5 at one concrete row per extractor. -/
theorem extractor_positivity_amended_witness :
    (0 ≤ txIBW.shares ∧ txIBW.amount ≠ .ninf ∧ ∀ q, txIBW.amount = .fin q → 0 ≤ q) ∧
      (0 ≤ txSXW.shares ∧
        (txSXW.amount = .pinf ∨ ∃ q, txSXW.amount = .fin q ∧ qmk 2 1 ≤ q)) :=
  ⟨(extractor_positivity_amended "USD\n2025-01-10,x\nSYM 10 1.5 2.5000 300").1
      txIBW (by decide),
    (extractor_positivity_amended "31-dec-2025 Aandelen Foo EUR Koop OPEN 5 45,67").2
      [txSXW] (by decide) txSXW (by decide)⟩

/-- Claim C8 exactly as stated: the amount of a matched Format-B line is the
selected candidate, and a matched line with no qualifying candidate
produces no transaction and is skipped. -/
def claimC8 : Prop :=
  (∀ (line : List Char) (tx : RawTxF), processSaxoLineC line = .ok (some tx) →
      selectAmountF (findAmounts (trimChars line)) = some tx.amount) ∧
  (∀ line : List Char,
      selectAmountF (findAmounts (trimChars line)) = none →
      processSaxoLineC line = .ok none)

/-- A matched Format-B line whose share token is 400 digits long and whose
only collected candidate is `1,00`. -/
def saxoOvW : List Char :=
  "1-jan-2025 Aandelen Foo EUR Koop OPEN ".toList ++
    List.replicate 400 '9' ++ " 1,00".toList

/-- Counterexample to C8: on `saxoOvW` every candidate is below the
threshold, but the line is NOT skipped: the share conversion
`abs(int(float(...)))` of line 279 overflows to an uncaught
`OverflowError` before amount selection is even reached. -/
theorem saxo_skip_cex : ¬ claimC8 := by
  intro h
  have h2 := h.2 saxoOvW (by decide)
  have hev : processSaxoLineC saxoOvW = .error .overflowError := by decide
  rw [hev] at h2
  exact Except.noConfusion h2

/-- C8 amended: on a line the loop body completes without aborting, the
transaction amount is the selected candidate — the converted value of one
collected locale-pattern token, a finite value of at least 2 or an
infinity, dominating every candidate whose value passes the threshold test
— and a line with no qualifying candidate is either skipped or aborts the
whole extraction with the uncaught `OverflowError` of the share
conversion. -/
theorem saxo_amount_selection :
    (∀ (line : List Char) (tx : RawTxF), processSaxoLineC line = .ok (some tx) →
        selectAmountF (findAmounts (trimChars line)) = some tx.amount ∧
          (tx.amount = .pinf ∨ ∃ q, tx.amount = .fin q ∧ qmk 2 1 ≤ q) ∧
          (∃ c ∈ findAmounts (trimChars line), amtValF c = some tx.amount) ∧
          ∀ c ∈ findAmounts (trimChars line), ∀ v, amtValF c = some v →
            pfLt v (.fin (qmk 2 1)) = false → pfLt tx.amount v = false) ∧
    (∀ line : List Char,
        selectAmountF (findAmounts (trimChars line)) = none →
        processSaxoLineC line = .ok none ∨
          processSaxoLineC line = .error .overflowError) := by
  constructor
  · intro line tx h
    obtain ⟨-, hsel, -⟩ := processSaxoLineC_ok_some h
    obtain ⟨hshape, hex, hmax⟩ := selectAmountF_some hsel
    exact ⟨hsel, hshape, hex, hmax⟩
  · intro line hnone
    cases hp : processSaxoLineC line with
    | ok o =>
      cases o with
      | none => exact Or.inl rfl
      | some tx =>
        obtain ⟨-, hsel, -⟩ := processSaxoLineC_ok_some hp
        rw [hnone] at hsel
        exact Option.noConfusion hsel
    | error e =>
      obtain ⟨he, -⟩ := processSaxoLineC_error hp
      subst he
      exact Or.inr rfl

def saxoLineW : List Char :=
  ("28-nov-2025 01-dec-2025 6494810500 Aandelen JDC Group AG EUR Verkoop " ++
    "SLUITEN -889 26,000 1,0000 -23.102,44 x").toList

def txSaxoW : RawTxF :=
  ⟨"2025-11-28", "Saxo Bank", "JDC Group AG", "Sell", 889, "EUR",
    .fin (qmk 2310244 100)⟩

/-- Witness for the amended C8 on a realistic Format-B line (the booked
amount -23.102,44 is selected over the 26,00 and 1,00 pattern hits) and on
a non-matching line with no candidates at all. -/
theorem saxo_amount_selection_witness :
    (selectAmountF (findAmounts (trimChars saxoLineW)) = some txSaxoW.amount ∧
      (txSaxoW.amount = .pinf ∨ ∃ q, txSaxoW.amount = .fin q ∧ qmk 2 1 ≤ q) ∧
      (∃ c ∈ findAmounts (trimChars saxoLineW), amtValF c = some txSaxoW.amount) ∧
      ∀ c ∈ findAmounts (trimChars saxoLineW), ∀ v, amtValF c = some v →
        pfLt v (.fin (qmk 2 1)) = false → pfLt txSaxoW.amount v = false) ∧
    (processSaxoLineC ("garbage".toList) = .ok none ∨
      processSaxoLineC ("garbage".toList) = .error .overflowError) :=
  ⟨saxo_amount_selection.1 saxoLineW txSaxoW (by decide),
    saxo_amount_selection.2 ("garbage".toList) (by decide)⟩

/-- Claim C9 exactly as stated for the extractor that can abort: the
Format-B extractor returns a transaction list on EVERY input text, never
propagating an exception.  (The Format-A extractor is total: see the
amended theorem.) -/
def claimC9 : Prop :=
  ∀ text : String, ∃ l, extract_saxo_transactionsF text = .ok l

/-- A matched Format-B line whose share token is 400 digits long:
`float()` of the token overflows to infinity and `int()` of that infinity
raises `OverflowError`, which `except (ValueError, IndexError,
AttributeError)` does not catch. -/
def saxoOvW2 : List Char :=
  "2-jan-2025 Aandelen Bar EUR Verkoop SLUITEN ".toList ++
    List.replicate 400 '9' ++ " 45,67".toList

/-- Counterexample to C9: one Format-B line aborts the whole extraction
with the uncaught `OverflowError` of the line-279 share conversion. -/
theorem extractors_total_cex : ¬ claimC9 := by
  intro h
  obtain ⟨l, hl⟩ := h (String.mk saxoOvW2)
  have he : extract_saxo_transactionsF (String.mk saxoOvW2) = .error .overflowError := by
    decide
  rw [he] at hl
  exact Except.noConfusion hl

/-- C9 amended.  Format A is total: the record parser raises only
`ValueError`, which the line-216 handler catches into a skip, and the loop
continues past a data row that fails to parse.  Format B is total except
for exactly one path: an uncaught exception of the loop body is always the
`OverflowError` of the line-279 share conversion (an infinite share float);
every caught failure skips just its own line. -/
theorem extractors_total :
    (∀ (c d nl : List Char) (e : PyErr), parseIBDataF c d nl = .error e →
        e = .valueError ∧ parseIBDataC c d nl = none) ∧
    (∀ (c l nl : List Char) (rest : List (List Char)),
        currencyCodes.contains (trimChars l) = false →
        isExitLine (trimChars l) = false →
        isDateLine (trimChars l) = true →
        parseIBDataC c (beforeComma (trimChars l)) (trimChars nl) = none →
        ibGoF (some c) (l :: nl :: rest) = ibGoF (some c) (nl :: rest)) ∧
    (∀ (line : List Char) (e : PyErr), processSaxoLineC line = .error e →
        e = .overflowError ∧ ∃ m sv, findShares (trimChars line) = some m ∧
          pyFloatF (stripDots (stripCommas m)) = some sv ∧
          pyIntF sv = .error .overflowError) ∧
    (∀ (pre post : List (List Char)) (bad : List Char),
        processSaxoLineC bad = .ok none →
        saxoGoF (pre ++ bad :: post) = saxoGoF (pre ++ post)) := by
  refine ⟨?_, ?_, ?_, ?_⟩
  · intro c d nl e h
    refine ⟨parseIBDataF_error h, ?_⟩
    unfold parseIBDataC
    rw [h]
  · intro c l nl rest h1 h2 h3 h4
    conv_lhs => rw [ibGoF]
    simp only [h1, Bool.false_eq_true, if_false, h2, h3, if_true, h4]
  · intro line e h
    exact processSaxoLineC_error h
  · intro pre post bad hbad
    induction pre with
    | nil =>
      show saxoGoF (bad :: post) = saxoGoF post
      conv_lhs => rw [saxoGoF]
      simp only [hbad]
    | cons p pre ih =>
      show saxoGoF (p :: (pre ++ bad :: post)) = saxoGoF (p :: (pre ++ post))
      conv_lhs => rw [saxoGoF]
      conv_rhs => rw [saxoGoF]
      rw [ih]

def saxoGoodW : List Char := "31-dec-2025 Aandelen Foo EUR Koop OPEN 5 45,67".toList

/-- Witness for the amended C9: a Format-A data row with a non-numeric
quantity is skipped and the loop continues past it; the 400-digit share
token aborts with exactly the share-conversion overflow; a junk Format-B
line is dropped without affecting the rest of the run. -/
theorem extractors_total_witness :
    (PyErr.valueError = PyErr.valueError ∧
      parseIBDataC ("USD".toList) ("2025-01-10".toList)
        ("SYM abc 1.5 2.5 9".toList) = none) ∧
    (ibGoF (some ("USD".toList))
        ["2025-01-10,x".toList, "SYM abc 1.5 2.5 9".toList] =
      ibGoF (some ("USD".toList)) ["SYM abc 1.5 2.5 9".toList]) ∧
    (PyErr.overflowError = PyErr.overflowError ∧
      ∃ m sv, findShares (trimChars saxoOvW2) = some m ∧
        pyFloatF (stripDots (stripCommas m)) = some sv ∧
        pyIntF sv = .error .overflowError) ∧
    (saxoGoF ([] ++ "garbage".toList :: [saxoGoodW]) = saxoGoF ([] ++ [saxoGoodW])) :=
  ⟨extractors_total.1 ("USD".toList) ("2025-01-10".toList)
      ("SYM abc 1.5 2.5 9".toList) .valueError (by decide),
    extractors_total.2.1 ("USD".toList) ("2025-01-10,x".toList)
      ("SYM abc 1.5 2.5 9".toList) [] (by decide) (by decide) (by decide) (by decide),
    extractors_total.2.2.1 saxoOvW2 .overflowError (by decide),
    extractors_total.2.2.2 [] [saxoGoodW] ("garbage".toList) (by decide)⟩

/-- The faithful model reproduces CPython on a `nan` proceeds token:
`float('nan')` succeeds and the Format-A row is appended with a nan
amount. -/
theorem ib_nan_row :
    extract_ib_transactionsF "USD\n2025-01-10,x\nSYM 5 1.5 nan 9" =
      [⟨"2025-01-10", "Interactive Brokers", "SYM", "Buy", 5, "USD", .nan⟩] := by
  decide

/-- The faithful model reproduces CPython on a 400-digit amount candidate:
it converts to infinity, passes the threshold, is selected, and the row is
appended with an infinite amount. -/
theorem saxo_inf_amount_row :
    extract_saxo_transactionsF (String.mk ("3-jan-2025 Aandelen Baz EUR Koop OPEN 5 ".toList ++
        List.replicate 400 '9' ++ ",00".toList)) =
      .ok [⟨"2025-01-03", "Saxo Bank", "Baz", "Buy", 5, "EUR", .pinf⟩] := by
  decide
